import Mathlib

/-!
Verification of the CDC delegate, key codec, pending-delete-range registry and
range-deletion routines of the tikv repository, against its natural-language
specification.  Rust byte strings (`Vec<u8>`) are modelled as `List Nat`,
machine integers as `Nat`, fallible or panicking code as `Option`.
-/

namespace TikvSpec

/-- Raw and encoded byte strings (`Vec<u8>`): lists of byte values. -/
abbrev Bytes := List Nat

/-- Lexicographic strict order on byte strings, the `Ord` used by
`BTreeMap<Vec<u8>, _>` and byte-slice comparison in Rust. -/
def bytesLt : Bytes → Bytes → Bool
  | [], [] => false
  | [], _ :: _ => true
  | _ :: _, [] => false
  | a :: as, b :: bs => if a < b then true else if b < a then false else bytesLt as bs

theorem bytesLt_irrefl (a : Bytes) : bytesLt a a = false := by
  induction a with
  | nil => rfl
  | cons x xs ih => simp [bytesLt, ih]

theorem bytesLt_asymm : ∀ {a b : Bytes}, bytesLt a b = true → bytesLt b a = false
  | [], [], h => by simp [bytesLt] at h
  | [], _ :: _, _ => rfl
  | _ :: _, [], h => by simp [bytesLt] at h
  | a :: as, b :: bs, h => by
    simp only [bytesLt] at h ⊢
    rcases Nat.lt_trichotomy a b with hab | hab | hab
    · simp [hab, Nat.not_lt.mpr (Nat.le_of_lt hab)]
    · subst hab
      simp only [Nat.lt_irrefl, if_false] at h ⊢
      exact bytesLt_asymm h
    · simp [hab, Nat.not_lt.mpr (Nat.le_of_lt hab)] at h

theorem bytesLt_trans : ∀ {a b c : Bytes},
    bytesLt a b = true → bytesLt b c = true → bytesLt a c = true
  | [], _, _ :: _, _, _ => rfl
  | [], b, [], _, h2 => by cases b <;> simp [bytesLt] at h2
  | _ :: _, b, [], h1, h2 => by
    cases b
    · simp [bytesLt] at h1
    · simp [bytesLt] at h2
  | a :: as, [], c :: cs, h1, _ => by simp [bytesLt] at h1
  | a :: as, b :: bs, c :: cs, h1, h2 => by
    simp only [bytesLt] at h1 h2 ⊢
    rcases Nat.lt_trichotomy a b with hab | hab | hab
    · rcases Nat.lt_trichotomy b c with hbc | hbc | hbc
      · simp [Nat.lt_trans hab hbc]
      · subst hbc; simp [hab]
      · simp [hbc, Nat.not_lt.mpr (Nat.le_of_lt hbc)] at h2
    · subst hab
      rcases Nat.lt_trichotomy a c with hac | hac | hac
      · simp [hac]
      · subst hac
        simp only [Nat.lt_irrefl, if_false] at h1 h2 ⊢
        exact bytesLt_trans h1 h2
      · simp [hac, Nat.not_lt.mpr (Nat.le_of_lt hac)] at h2
    · simp [hab, Nat.not_lt.mpr (Nat.le_of_lt hab)] at h1

theorem bytesLt_total : ∀ {a b : Bytes},
    bytesLt a b = false → bytesLt b a = false → a = b
  | [], [], _, _ => rfl
  | [], _ :: _, h1, _ => by simp [bytesLt] at h1
  | _ :: _, [], _, h2 => by simp [bytesLt] at h2
  | a :: as, b :: bs, h1, h2 => by
    simp only [bytesLt] at h1 h2
    rcases Nat.lt_trichotomy a b with hab | hab | hab
    · simp [hab] at h1
    · subst hab
      simp only [Nat.lt_irrefl, if_false] at h1 h2
      exact congrArg (a :: ·) (bytesLt_total h1 h2)
    · simp [hab, Nat.not_lt.mpr (Nat.le_of_lt hab)] at h2

theorem bytesLt_of_le_of_lt {a b c : Bytes}
    (h1 : bytesLt b a = false) (h2 : bytesLt b c = true) : bytesLt a c = true := by
  rcases Bool.eq_false_or_eq_true (bytesLt a b) with hab | hab
  · exact bytesLt_trans hab h2
  · have : a = b := bytesLt_total hab h1
    subst this; exact h2

theorem bytesLt_of_lt_of_le {a b c : Bytes}
    (h1 : bytesLt a b = true) (h2 : bytesLt c b = false) : bytesLt a c = true := by
  rcases Bool.eq_false_or_eq_true (bytesLt b c) with hbc | hbc
  · exact bytesLt_trans h1 hbc
  · have : b = c := bytesLt_total hbc h2
    subst this; exact h1

/-! ## Key and timestamp codec (`components/txn_types/src/types.rs`) -/

/-- Modelled from the spec: the order-preserving, chunked, padded memcmp
encoding of raw keys (`tikv_util::codec::bytes::encode_bytes`, whose source is
not part of this tree).  The key is cut into groups of eight bytes; every full
group is followed by the marker byte `0xFF`, and the final partial group is
padded with zero bytes to length eight and followed by the marker
`0xFF - pad`; a key whose length is a multiple of eight ends with an
all-padding group carrying marker `0xF7`. -/
def encodeBytes : Bytes → Bytes
  | b0 :: b1 :: b2 :: b3 :: b4 :: b5 :: b6 :: b7 :: rest =>
      b0 :: b1 :: b2 :: b3 :: b4 :: b5 :: b6 :: b7 :: 255 :: encodeBytes rest
  | short => short ++ List.replicate (8 - short.length) 0 ++ [255 - (8 - short.length)]

/-- Modelled from the spec: decoding of the memcmp encoding
(`tikv_util::codec::bytes::decode_bytes_in_place`).  Groups of nine bytes are
consumed; a `0xFF` marker yields eight payload bytes, any other marker closes
the key after checking the zero padding.  Malformed input gives `none`
(the Rust decoder returns `Err`). -/
def decodeBytes : Bytes → Option Bytes
  | b0 :: b1 :: b2 :: b3 :: b4 :: b5 :: b6 :: b7 :: m :: rest =>
      if m = 255 then
        (decodeBytes rest).map (fun r => b0 :: b1 :: b2 :: b3 :: b4 :: b5 :: b6 :: b7 :: r)
      else
        let g : Bytes := [b0, b1, b2, b3, b4, b5, b6, b7]
        if 247 ≤ m ∧ rest = [] ∧ g.drop (8 - (255 - m)) = List.replicate (255 - m) 0 then
          some (g.take (8 - (255 - m)))
        else none
  | _ => none

theorem decodeBytes_encodeBytes : ∀ (k : Bytes), decodeBytes (encodeBytes k) = some k
  | [] => by decide
  | [b0] => by simp [encodeBytes, decodeBytes]
  | [b0, b1] => by simp [encodeBytes, decodeBytes]
  | [b0, b1, b2] => by simp [encodeBytes, decodeBytes]
  | [b0, b1, b2, b3] => by simp [encodeBytes, decodeBytes]
  | [b0, b1, b2, b3, b4] => by simp [encodeBytes, decodeBytes]
  | [b0, b1, b2, b3, b4, b5] => by simp [encodeBytes, decodeBytes]
  | [b0, b1, b2, b3, b4, b5, b6] => by simp [encodeBytes, decodeBytes]
  | b0 :: b1 :: b2 :: b3 :: b4 :: b5 :: b6 :: b7 :: rest => by
      have ih := decodeBytes_encodeBytes rest
      simp [encodeBytes, decodeBytes, ih]

/-- Big-endian byte decomposition of a natural number into `n` bytes
(the shape produced by `encode_u64`). -/
def toBytesBE : Nat → Nat → Bytes
  | 0, _ => []
  | n + 1, v => toBytesBE n (v / 256) ++ [v % 256]

/-- Big-endian recomposition of a byte string into a natural number. -/
def fromBytesBE (l : Bytes) : Nat := l.foldl (fun a b => a * 256 + b) 0

theorem toBytesBE_length : ∀ (n v : Nat), (toBytesBE n v).length = n
  | 0, _ => rfl
  | n + 1, v => by simp [toBytesBE, toBytesBE_length n]

theorem fromBytesBE_append_singleton (l : Bytes) (b : Nat) :
    fromBytesBE (l ++ [b]) = fromBytesBE l * 256 + b := by
  simp [fromBytesBE, List.foldl_append]

theorem fromBytesBE_toBytesBE : ∀ (n v : Nat), fromBytesBE (toBytesBE n v) = v % 256 ^ n
  | 0, v => by simp [toBytesBE, fromBytesBE, Nat.mod_one]
  | n + 1, v => by
    rw [toBytesBE, fromBytesBE_append_singleton, fromBytesBE_toBytesBE n]
    have h : (256 : Nat) ^ (n + 1) = 256 * 256 ^ n := by
      rw [pow_succ]; exact Nat.mul_comm _ _
    rw [h, Nat.mod_mul]
    ring

/-- An encoded (or timestamped) key: the `Key` newtype around encoded bytes. -/
structure Key where
  enc : Bytes
deriving DecidableEq

/-- `Key::from_raw`: memcmp-encode raw bytes. -/
def Key.from_raw (k : Bytes) : Key := ⟨encodeBytes k⟩

/-- `Key::from_encoded`. -/
def Key.from_encoded (e : Bytes) : Key := ⟨e⟩

/-- `Key::into_raw`: decode the memcmp encoding; `none` models the `Err` case. -/
def Key.into_raw (k : Key) : Option Bytes := decodeBytes k.enc

/-- Modelled from the spec: `encode_u64_desc`
(`tikv_util::codec::number`, not part of this tree) appends the eight
big-endian bytes of the bitwise complement of the 64-bit timestamp. -/
def encodeU64Desc (ts : Nat) : Bytes := toBytesBE 8 (2 ^ 64 - 1 - ts % 2 ^ 64)

/-- `Key::append_ts`: append the descending-encoded timestamp. -/
def Key.append_ts (k : Key) (ts : Nat) : Key := ⟨k.enc ++ encodeU64Desc ts⟩

/-- `Key::decode_ts`: read the trailing eight bytes as a descending-encoded
`u64`; keys shorter than eight bytes give `Err` (`none`). -/
def Key.decode_ts (k : Key) : Option Nat :=
  if k.enc.length < 8 then none
  else some (2 ^ 64 - 1 - fromBytesBE (k.enc.drop (k.enc.length - 8)))

/-- `Key::truncate_ts`: drop the trailing eight timestamp bytes; keys shorter
than eight bytes give `Err` (`none`). -/
def Key.truncate_ts (k : Key) : Option Key :=
  if k.enc.length < 8 then none
  else some ⟨k.enc.take (k.enc.length - 8)⟩

/-- C9: for every raw byte string `k` and every 64-bit timestamp `t`,
`decode_ts(from_raw(k).append_ts(t)) = t`, and
`from_raw(k).append_ts(t).truncate_ts().into_raw() = k`, both operations
succeeding. -/
theorem C9_key_timestamp_roundtrip (k : Bytes) (t : Nat) (ht : t < 2 ^ 64) :
    ((Key.from_raw k).append_ts t).decode_ts = some t ∧
    ((Key.from_raw k).append_ts t).truncate_ts.bind Key.into_raw = some k := by
  have hlen : (encodeU64Desc t).length = 8 := toBytesBE_length 8 _
  have hmod : t % 2 ^ 64 = t := Nat.mod_eq_of_lt ht
  have hpow : (256 : Nat) ^ 8 = 2 ^ 64 := by norm_num
  have hfrom : fromBytesBE (encodeU64Desc t) = 2 ^ 64 - 1 - t := by
    rw [encodeU64Desc, fromBytesBE_toBytesBE, hpow, hmod]
    exact Nat.mod_eq_of_lt (by omega)
  have harith : (encodeBytes k).length + 8 - 8 = (encodeBytes k).length := by omega
  constructor
  · rw [Key.from_raw, Key.append_ts, Key.decode_ts]
    simp only [List.length_append, hlen]
    rw [if_neg (by omega), harith, List.drop_left, hfrom]
    congr 1
    omega
  · rw [Key.from_raw, Key.append_ts, Key.truncate_ts]
    simp only [List.length_append, hlen]
    rw [if_neg (by omega), harith, List.take_left]
    simpa [Key.into_raw] using decodeBytes_encodeBytes k

/-- Witness for C9 at a concrete key and timestamp. -/
theorem C9_key_timestamp_roundtrip_witness :
    (3 : Nat) < 2 ^ 64 ∧
    (((Key.from_raw [1, 2, 3]).append_ts 3).decode_ts = some 3 ∧
     ((Key.from_raw [1, 2, 3]).append_ts 3).truncate_ts.bind Key.into_raw = some [1, 2, 3]) :=
  ⟨by norm_num, C9_key_timestamp_roundtrip [1, 2, 3] 3 (by norm_num)⟩

/-! ## PendingDeleteRanges (`components/raftstore/src/store/worker/region.rs`) -/

/-- `StalePeerInfo`: the value stored for a pending delete range; the start key
is the map key.  Timeout instants are modelled as plain numbers. -/
structure StalePeerInfo where
  region_id : Nat
  end_key : Bytes
  timeout : Nat
deriving DecidableEq

/-- `PendingDeleteRanges`: the `BTreeMap<Vec<u8>, StalePeerInfo>` modelled as
an association list kept strictly sorted by start key. -/
structure PendingDeleteRanges where
  ranges : List (Bytes × StalePeerInfo)
deriving DecidableEq

/-- A returned overlap triple `(region_id, start_key, end_key)`. -/
abbrev RangeTriple := Nat × Bytes × Bytes

/-- `PendingDeleteRanges::find_overlap_ranges` on the underlying list: the
greatest entry with `start < s` when its `end > s`, followed by every entry
with `s ≤ start < e`, in map (ascending key) order. -/
def findOverlapAux (l : List (Bytes × StalePeerInfo)) (s e : Bytes) : List RangeTriple :=
  (match (l.filter (fun x => bytesLt x.1 s)).getLast? with
    | some x =>
        if bytesLt s x.2.end_key then [(x.2.region_id, x.1, x.2.end_key)] else []
    | none => []) ++
  (l.filter (fun x => !bytesLt x.1 s && bytesLt x.1 e)).map
    (fun x => (x.2.region_id, x.1, x.2.end_key))

/-- `PendingDeleteRanges::find_overlap_ranges`. -/
def PendingDeleteRanges.find_overlap_ranges (m : PendingDeleteRanges) (s e : Bytes) :
    List RangeTriple :=
  findOverlapAux m.ranges s e

/-- `PendingDeleteRanges::drain_overlap_ranges`: remove the entries returned
by `find_overlap_ranges` and return them. -/
def PendingDeleteRanges.drain_overlap_ranges (m : PendingDeleteRanges) (s e : Bytes) :
    List RangeTriple × PendingDeleteRanges :=
  let found := m.find_overlap_ranges s e
  (found, ⟨m.ranges.filter (fun x => !found.any (fun r => r.2.1 == x.1))⟩)

/-- `PendingDeleteRanges::remove`: remove (and return) the entry with exactly
this start key. -/
def PendingDeleteRanges.remove (m : PendingDeleteRanges) (start_key : Bytes) :
    Option RangeTriple × PendingDeleteRanges :=
  match m.ranges.find? (fun x => x.1 == start_key) with
  | some x =>
      (some (x.2.region_id, x.1, x.2.end_key),
       ⟨m.ranges.filter (fun y => !(y.1 == start_key))⟩)
  | none => (none, m)

/-- Ordered insertion into the sorted association list, replacing an equal
key: the `BTreeMap::insert` of the model. -/
def sortedInsert : List (Bytes × StalePeerInfo) → Bytes → StalePeerInfo →
    List (Bytes × StalePeerInfo)
  | [], k, v => [(k, v)]
  | x :: xs, k, v =>
    if bytesLt k x.1 then (k, v) :: x :: xs
    else if k = x.1 then (k, v) :: xs
    else x :: sortedInsert xs k v

/-- `PendingDeleteRanges::insert`: asserts — modelled as `none` — when an
overlapping range is still present; callers must drain first. -/
def PendingDeleteRanges.insert (m : PendingDeleteRanges) (region_id : Nat)
    (start_key end_key : Bytes) (timeout : Nat) : Option PendingDeleteRanges :=
  if m.find_overlap_ranges start_key end_key ≠ [] then none
  else some ⟨sortedInsert m.ranges start_key ⟨region_id, end_key, timeout⟩⟩

/-- Strictly increasing start keys: the representation invariant of the
`BTreeMap` model. -/
def rangesSorted (l : List (Bytes × StalePeerInfo)) : Prop :=
  l.Pairwise (fun a b => bytesLt a.1 b.1 = true)

/-- The two half-open byte-string intervals share a point
(`max start < min end`). -/
def rangesOverlap (s1 e1 s2 e2 : Bytes) : Bool :=
  bytesLt (if bytesLt s1 s2 then s2 else s1) e1 &&
  bytesLt (if bytesLt s1 s2 then s2 else s1) e2

/-- No two registered ranges overlap. -/
def NoOverlap (m : PendingDeleteRanges) : Prop :=
  m.ranges.Pairwise (fun a b => rangesOverlap a.1 a.2.end_key b.1 b.2.end_key = false)

/-- Every stored range is proper: `start < end`. -/
def ProperRanges (m : PendingDeleteRanges) : Prop :=
  ∀ x ∈ m.ranges, bytesLt x.1 x.2.end_key = true

/-- Separation: each range ends at or before any later range starts. -/
def Separated (l : List (Bytes × StalePeerInfo)) : Prop :=
  l.Pairwise (fun a b => bytesLt b.1 a.2.end_key = false)

theorem separated_noOverlap (l : List (Bytes × StalePeerInfo))
    (hs : rangesSorted l) (hsep : Separated l) :
    l.Pairwise (fun a b => rangesOverlap a.1 a.2.end_key b.1 b.2.end_key = false) := by
  refine (hs.and hsep).imp (fun h => ?_)
  rw [rangesOverlap, if_pos h.1]
  simp [h.2]

/-- An element of a sorted list that is not its last element has a key below
the last element's key. -/
theorem mem_lt_getLast {l : List (Bytes × StalePeerInfo)} {y p : Bytes × StalePeerInfo}
    (hs : rangesSorted l) (hy : y ∈ l) (hp : l.getLast? = some p) :
    y = p ∨ bytesLt y.1 p.1 = true := by
  induction l with
  | nil => cases hy
  | cons a rest ih =>
    rcases List.pairwise_cons.mp hs with ⟨ha, hrest⟩
    cases hrest_empty : rest with
    | nil =>
      subst hrest_empty
      simp at hp hy
      subst hp; subst hy; exact Or.inl rfl
    | cons b rest2 =>
      have hne : rest ≠ [] := by rw [hrest_empty]; exact List.cons_ne_nil _ _
      have hp2 : rest.getLast? = some p := by
        rw [List.getLast?_cons] at hp
        cases hlr : rest.getLast? with
        | none => exact absurd (List.getLast?_eq_none_iff.mp hlr) hne
        | some q => rw [hlr] at hp; simpa using hp
      cases hy with
      | head => exact Or.inr (ha p (List.mem_of_getLast?_eq_some hp2))
      | tail _ hy => exact ih hrest hy hp2

theorem rangesOverlap_left {s e k ek : Bytes} (hse : bytesLt s e = true)
    (h : bytesLt k s = true) : rangesOverlap k ek s e = bytesLt s ek := by
  simp [rangesOverlap, h, hse]

theorem rangesOverlap_right {s e k ek : Bytes} (h : bytesLt k s = false)
    (hp : bytesLt k ek = true) : rangesOverlap k ek s e = bytesLt k e := by
  simp [rangesOverlap, h, hp]

/-- On a sorted, proper, non-overlapping map and a non-empty query range,
`find_overlap_ranges` returns exactly the entries whose interval intersects
`[s, e)`, in ascending start-key order. -/
theorem findOverlapAux_eq_filter (s e : Bytes) (hse : bytesLt s e = true) :
    ∀ (l : List (Bytes × StalePeerInfo)),
      rangesSorted l → (∀ x ∈ l, bytesLt x.1 x.2.end_key = true) →
      l.Pairwise (fun a b => rangesOverlap a.1 a.2.end_key b.1 b.2.end_key = false) →
      findOverlapAux l s e =
        (l.filter (fun z => rangesOverlap z.1 z.2.end_key s e)).map
          (fun z => (z.2.region_id, z.1, z.2.end_key)) := by
  intro l
  induction l with
  | nil => intro _ _ _; rfl
  | cons x l ih =>
    intro hs hp hn
    rcases List.pairwise_cons.mp hs with ⟨hsx, hsl⟩
    rcases List.pairwise_cons.mp hn with ⟨hnx, hnl⟩
    have hpl : ∀ y ∈ l, bytesLt y.1 y.2.end_key = true :=
      fun y hy => hp y (List.mem_cons_of_mem _ hy)
    have hpx : bytesLt x.1 x.2.end_key = true := hp x (List.mem_cons_self _ _)
    cases hxs : bytesLt x.1 s with
    | false =>
      have hlt : ∀ y ∈ x :: l, bytesLt y.1 s = false := by
        intro y hy
        cases hy with
        | head => exact hxs
        | tail _ hy =>
          cases h : bytesLt y.1 s with
          | false => rfl
          | true => rw [bytesLt_trans (hsx y hy) h] at hxs; cases hxs
      have hfe : (x :: l).filter (fun z => bytesLt z.1 s) = [] :=
        List.filter_eq_nil_iff.mpr (by intro a ha; simp [hlt a ha])
      have hcongr : (x :: l).filter (fun z => !bytesLt z.1 s && bytesLt z.1 e) =
          (x :: l).filter (fun z => rangesOverlap z.1 z.2.end_key s e) := by
        refine List.filter_congr ?_
        intro y hy
        rw [rangesOverlap_right (hlt y hy) (hp y hy)]
        simp [hlt y hy]
      rw [findOverlapAux, hfe, hcongr]
      rfl
    | true =>
      have hfc : (x :: l).filter (fun z => bytesLt z.1 s) =
          x :: l.filter (fun z => bytesLt z.1 s) := by
        simp [List.filter_cons, hxs]
      rcases hfl : l.filter (fun z => bytesLt z.1 s) with _ | ⟨q, fl⟩
      · have hlt : ∀ y ∈ l, bytesLt y.1 s = false := by
          intro y hy
          have := List.filter_eq_nil_iff.mp hfl y hy
          simpa using this
        have hcongr : l.filter (fun z => !bytesLt z.1 s && bytesLt z.1 e) =
            l.filter (fun z => rangesOverlap z.1 z.2.end_key s e) := by
          refine List.filter_congr ?_
          intro y hy
          rw [rangesOverlap_right (hlt y hy) (hpl y hy)]
          simp [hlt y hy]
        have hrhs : (x :: l).filter (fun z => rangesOverlap z.1 z.2.end_key s e) =
            (if bytesLt s x.2.end_key then [x] else []) ++
              l.filter (fun z => rangesOverlap z.1 z.2.end_key s e) := by
          rw [List.filter_cons, rangesOverlap_left hse hxs]
          cases bytesLt s x.2.end_key <;> simp
        have hin : (x :: l).filter (fun z => !bytesLt z.1 s && bytesLt z.1 e) =
            l.filter (fun z => !bytesLt z.1 s && bytesLt z.1 e) := by
          rw [List.filter_cons]
          simp [hxs]
        rw [findOverlapAux, hfc, hfl, hrhs, hin, hcongr]
        simp only [List.getLast?_singleton]
        cases bytesLt s x.2.end_key <;> simp
      · have hmemq : q ∈ l.filter (fun z => bytesLt z.1 s) := by
          rw [hfl]; exact List.mem_cons_self _ _
        have hq : q ∈ l ∧ bytesLt q.1 s = true := by
          have := List.mem_filter.mp hmemq
          exact ⟨this.1, by simpa using this.2⟩
        have hxe : bytesLt s x.2.end_key = false := by
          cases h : bytesLt s x.2.end_key with
          | false => rfl
          | true =>
            have hov := hnx q hq.1
            rw [rangesOverlap] at hov
            rw [if_pos (hsx q hq.1)] at hov
            rw [bytesLt_trans hq.2 h, hpl q hq.1] at hov
            cases hov
        have hgl : ((x :: l).filter (fun z => bytesLt z.1 s)).getLast? =
            (l.filter (fun z => bytesLt z.1 s)).getLast? := by
          rw [hfc, List.getLast?_cons, hfl]
          simp [List.getLast?_cons]
        have hrhs : (x :: l).filter (fun z => rangesOverlap z.1 z.2.end_key s e) =
            l.filter (fun z => rangesOverlap z.1 z.2.end_key s e) := by
          rw [List.filter_cons, rangesOverlap_left hse hxs, hxe]
          simp
        have hin : (x :: l).filter (fun z => !bytesLt z.1 s && bytesLt z.1 e) =
            l.filter (fun z => !bytesLt z.1 s && bytesLt z.1 e) := by
          rw [List.filter_cons]
          simp [hxs]
        have hih := ih hsl hpl hnl
        rw [findOverlapAux] at hih ⊢
        rw [hgl, hrhs, hin]
        exact hih

/-- Two distinct members of a pairwise list are related one way or the
other. -/
theorem pairwise_two_mem {α : Type} {R : α → α → Prop} {l : List α}
    (h : l.Pairwise R) {x y : α} (hx : x ∈ l) (hy : y ∈ l) (hne : x ≠ y) :
    R x y ∨ R y x := by
  have hsym : Symmetric (fun a b => R a b ∨ R b a) := fun _ _ hr => hr.symm
  exact (h.imp (fun hr => Or.inl hr)).forall hsym hx hy hne

/-- Keys determine entries in a sorted list. -/
theorem sorted_key_unique {l : List (Bytes × StalePeerInfo)} (hs : rangesSorted l)
    {x y : Bytes × StalePeerInfo} (hx : x ∈ l) (hy : y ∈ l) (hk : x.1 = y.1) :
    x = y := by
  by_cases hxy : x = y
  · exact hxy
  · rcases pairwise_two_mem hs hx hy hxy with h | h
    · rw [hk, bytesLt_irrefl] at h; cases h
    · rw [hk, bytesLt_irrefl] at h; cases h

/-- On a sorted, proper, non-overlapping map and a non-empty query range,
`drain_overlap_ranges` returns exactly the intersecting entries (ascending)
and keeps exactly the non-intersecting ones. -/
theorem drain_overlap_eq (m : PendingDeleteRanges) (s e : Bytes)
    (hs : rangesSorted m.ranges) (hp : ProperRanges m) (hn : NoOverlap m)
    (hse : bytesLt s e = true) :
    (m.drain_overlap_ranges s e).1 =
      (m.ranges.filter (fun z => rangesOverlap z.1 z.2.end_key s e)).map
        (fun z => (z.2.region_id, z.1, z.2.end_key)) ∧
    ((m.drain_overlap_ranges s e).2).ranges =
      m.ranges.filter (fun z => !rangesOverlap z.1 z.2.end_key s e) := by
  have hfind : m.find_overlap_ranges s e =
      (m.ranges.filter (fun z => rangesOverlap z.1 z.2.end_key s e)).map
        (fun z => (z.2.region_id, z.1, z.2.end_key)) :=
    findOverlapAux_eq_filter s e hse m.ranges hs hp hn
  refine ⟨hfind, ?_⟩
  show m.ranges.filter
      (fun x => !(m.find_overlap_ranges s e).any (fun r => r.2.1 == x.1)) = _
  rw [hfind]
  refine List.filter_congr ?_
  intro x hx
  have hany : ((m.ranges.filter (fun z => rangesOverlap z.1 z.2.end_key s e)).map
      (fun z => (z.2.region_id, z.1, z.2.end_key))).any (fun r => r.2.1 == x.1)
      = rangesOverlap x.1 x.2.end_key s e := by
    cases hov : rangesOverlap x.1 x.2.end_key s e with
    | true =>
      apply List.any_eq_true.mpr
      exact ⟨(x.2.region_id, x.1, x.2.end_key),
        List.mem_map_of_mem _ (List.mem_filter.mpr ⟨hx, by simp [hov]⟩), by simp⟩
    | false =>
      apply List.any_eq_false.mpr
      intro r hr hkey
      rcases List.mem_map.mp hr with ⟨z, hzf, rfl⟩
      rcases List.mem_filter.mp hzf with ⟨hzl, hzov⟩
      have hzx : z.1 = x.1 := by simpa using hkey
      have : z = x := sorted_key_unique hs hzl hx hzx
      subst this
      rw [hov] at hzov
      cases hzov
  rw [hany]

/-- If the predecessor candidate does not reach past `s`, no entry starting
before `s` does. -/
theorem left_closed {l : List (Bytes × StalePeerInfo)} {s : Bytes}
    (hs : rangesSorted l) (hsep : Separated l)
    (hpred : ∀ p, (l.filter (fun z => bytesLt z.1 s)).getLast? = some p →
      bytesLt s p.2.end_key = false) :
    ∀ y ∈ l, bytesLt y.1 s = true → bytesLt s y.2.end_key = false := by
  intro y hy hys
  have hyf : y ∈ l.filter (fun z => bytesLt z.1 s) :=
    List.mem_filter.mpr ⟨hy, by simp [hys]⟩
  obtain ⟨p, hp⟩ : ∃ p, (l.filter (fun z => bytesLt z.1 s)).getLast? = some p := by
    cases hgl : (l.filter (fun z => bytesLt z.1 s)).getLast? with
    | some p => exact ⟨p, rfl⟩
    | none =>
      rw [List.getLast?_eq_none_iff] at hgl
      rw [hgl] at hyf
      cases hyf
  have hpe := hpred p hp
  rcases mem_lt_getLast (hs.filter _) hyf hp with rfl | hlt
  · exact hpe
  · have hpmem := List.mem_of_getLast?_eq_some hp
    have hpl : p ∈ l := (List.mem_filter.mp hpmem).1
    have hps : bytesLt p.1 s = true := by
      simpa using (List.mem_filter.mp hpmem).2
    have hne : y ≠ p := by
      intro hcon
      rw [hcon, bytesLt_irrefl] at hlt
      cases hlt
    have hsepyp : bytesLt p.1 y.2.end_key = false := by
      rcases pairwise_two_mem (hs.and hsep) hy hpl hne with h | h
      · exact h.2
      · rw [bytesLt_asymm hlt] at h
        exact absurd h.1 (by simp)
    cases hcon : bytesLt s y.2.end_key with
    | false => rfl
    | true =>
      have : bytesLt s p.1 = true := bytesLt_of_lt_of_le hcon hsepyp
      rw [bytesLt_asymm this] at hps
      cases hps

/-- Entries of a sorted-insert result are the new pair or old entries. -/
theorem mem_sortedInsert {l : List (Bytes × StalePeerInfo)} {k : Bytes}
    {v : StalePeerInfo} {z : Bytes × StalePeerInfo}
    (hz : z ∈ sortedInsert l k v) : z = (k, v) ∨ z ∈ l := by
  induction l with
  | nil => simpa [sortedInsert] using hz
  | cons x xs ih =>
    rw [sortedInsert] at hz
    split_ifs at hz with h1 h2
    · rcases List.mem_cons.mp hz with h | h
      · exact Or.inl h
      · exact Or.inr h
    · rcases List.mem_cons.mp hz with h | h
      · exact Or.inl h
      · exact Or.inr (List.mem_cons_of_mem _ h)
    · rcases List.mem_cons.mp hz with h | h
      · exact Or.inr (h ▸ List.mem_cons_self _ _)
      · rcases ih h with h2 | h2
        · exact Or.inl h2
        · exact Or.inr (List.mem_cons_of_mem _ h2)

/-- Pairwise relations survive a sorted insert when the new pair relates
correctly to smaller and larger keys. -/
theorem pairwise_sortedInsert {R : (Bytes × StalePeerInfo) → (Bytes × StalePeerInfo) → Prop}
    {k : Bytes} {v : StalePeerInfo} :
    ∀ {l : List (Bytes × StalePeerInfo)}, rangesSorted l → l.Pairwise R →
    (∀ y ∈ l, bytesLt y.1 k = true → R y (k, v)) →
    (∀ y ∈ l, bytesLt k y.1 = true → R (k, v) y) →
    (sortedInsert l k v).Pairwise R := by
  intro l
  induction l with
  | nil => intro _ _ _ _; simp [sortedInsert]
  | cons x xs ih =>
    intro hs hR hleft hright
    rcases List.pairwise_cons.mp hs with ⟨hsx, hsxs⟩
    rcases List.pairwise_cons.mp hR with ⟨hRx, hRxs⟩
    rw [sortedInsert]
    split_ifs with h1 h2
    · refine List.pairwise_cons.mpr ⟨?_, hR⟩
      intro y hy
      rcases List.mem_cons.mp hy with h | h
      · exact h ▸ hright x (List.mem_cons_self _ _) h1
      · exact hright y (List.mem_cons_of_mem _ h) (bytesLt_trans h1 (hsx y h))
    · refine List.pairwise_cons.mpr ⟨?_, hRxs⟩
      intro y hy
      exact hright y (List.mem_cons_of_mem _ hy) (h2 ▸ hsx y hy)
    · have hxk : bytesLt x.1 k = true := by
        cases h : bytesLt x.1 k with
        | true => rfl
        | false => exact absurd (bytesLt_total (by simpa using h1) h) h2
      refine List.pairwise_cons.mpr
        ⟨?_, ih hsxs hRxs
          (fun y hy hyk => hleft y (List.mem_cons_of_mem _ hy) hyk)
          (fun y hy hky => hright y (List.mem_cons_of_mem _ hy) hky)⟩
      intro z hz
      rcases mem_sortedInsert hz with h | h
      · exact h ▸ hleft x (List.mem_cons_self _ _) hxk
      · exact hRx z h

theorem sorted_sortedInsert {l : List (Bytes × StalePeerInfo)} {k : Bytes}
    {v : StalePeerInfo} (hs : rangesSorted l) : rangesSorted (sortedInsert l k v) :=
  pairwise_sortedInsert hs hs (fun _ _ hyk => hyk) (fun _ _ hky => hky)

/-- After draining `[s, e)`, a further `find_overlap_ranges` on the same query
range is empty.  Requires only sortedness and separation. -/
theorem find_after_drain {m : PendingDeleteRanges} {s e : Bytes}
    (hs : rangesSorted m.ranges) (hsep : Separated m.ranges) :
    ((m.drain_overlap_ranges s e).2).find_overlap_ranges s e = [] := by
  have hsurv : ∀ y ∈ ((m.drain_overlap_ranges s e).2).ranges,
      y ∈ m.ranges ∧ ∀ r ∈ findOverlapAux m.ranges s e, r.2.1 ≠ y.1 := by
    intro y hy
    have hy2 : y ∈ m.ranges.filter
        (fun x => !(findOverlapAux m.ranges s e).any (fun r => r.2.1 == x.1)) := hy
    rcases List.mem_filter.mp hy2 with ⟨hyl, hcond⟩
    refine ⟨hyl, ?_⟩
    intro r hr hkey
    have hfalse : (findOverlapAux m.ranges s e).any (fun r => r.2.1 == y.1) = false := by
      cases h : (findOverlapAux m.ranges s e).any (fun r => r.2.1 == y.1) with
      | false => rfl
      | true => rw [h] at hcond; cases hcond
    exact List.any_eq_false.mp hfalse r hr (by simp [hkey])
  have hmem_part2 : ∀ y ∈ m.ranges, (!bytesLt y.1 s && bytesLt y.1 e) = true →
      (y.2.region_id, y.1, y.2.end_key) ∈ findOverlapAux m.ranges s e := by
    intro y hy hcond
    rw [findOverlapAux]
    exact List.mem_append.mpr
      (Or.inr (List.mem_map_of_mem _ (List.mem_filter.mpr ⟨hy, hcond⟩)))
  have hmem_head : ∀ p, (m.ranges.filter (fun z => bytesLt z.1 s)).getLast? = some p →
      bytesLt s p.2.end_key = true →
      (p.2.region_id, p.1, p.2.end_key) ∈ findOverlapAux m.ranges s e := by
    intro p hp hpe
    rw [findOverlapAux, hp]
    simp [hpe]
  show findOverlapAux ((m.drain_overlap_ranges s e).2).ranges s e = []
  rw [findOverlapAux]
  refine List.append_eq_nil.mpr ⟨?_, ?_⟩
  · -- predecessor candidate of the drained map cannot reach past s
    cases hgl : ((((m.drain_overlap_ranges s e).2).ranges).filter
        (fun z => bytesLt z.1 s)).getLast? with
    | none => rfl
    | some y =>
      have hyf := List.mem_of_getLast?_eq_some hgl
      rcases List.mem_filter.mp hyf with ⟨hyl', hysb⟩
      have hys : bytesLt y.1 s = true := by simpa using hysb
      rcases hsurv y hyl' with ⟨hyl, hnokey⟩
      cases hcon : bytesLt s y.2.end_key with
      | false => simp [hcon]
      | true =>
        exfalso
        have hyfl : y ∈ m.ranges.filter (fun z => bytesLt z.1 s) :=
          List.mem_filter.mpr ⟨hyl, by simp [hys]⟩
        obtain ⟨p, hp⟩ :
            ∃ p, (m.ranges.filter (fun z => bytesLt z.1 s)).getLast? = some p := by
          cases hgl2 : (m.ranges.filter (fun z => bytesLt z.1 s)).getLast? with
          | some p => exact ⟨p, rfl⟩
          | none =>
            rw [List.getLast?_eq_none_iff] at hgl2
            rw [hgl2] at hyfl
            cases hyfl
        by_cases hyp : y = p
        · subst hyp
          exact hnokey _ (hmem_head y hp hcon) rfl
        · rcases mem_lt_getLast (hs.filter _) hyfl hp with h | hlt
          · exact hyp h
          · have hpmem := List.mem_of_getLast?_eq_some hp
            have hpl : p ∈ m.ranges := (List.mem_filter.mp hpmem).1
            have hps : bytesLt p.1 s = true := by
              simpa using (List.mem_filter.mp hpmem).2
            rcases pairwise_two_mem (hs.and hsep) hyl hpl hyp with h | h
            · have : bytesLt s p.1 = true := bytesLt_of_lt_of_le hcon h.2
              rw [bytesLt_asymm this] at hps
              cases hps
            · rw [bytesLt_asymm hlt] at h
              exact absurd h.1 (by simp)
  · -- nothing in [s, e) survives the drain
    rw [List.map_eq_nil_iff]
    refine List.filter_eq_nil_iff.mpr ?_
    intro y hy hcond
    rcases hsurv y hy with ⟨hyl, hnokey⟩
    exact hnokey _ (hmem_part2 y hyl (by simpa using hcond)) rfl

/-- Inserting `[s, e)` after a drain that reported no overlap preserves
sortedness and separation. -/
theorem insert_inv {l : List (Bytes × StalePeerInfo)} {s e : Bytes} {rid t : Nat}
    (hs : rangesSorted l) (hsep : Separated l)
    (hfind : findOverlapAux l s e = []) :
    rangesSorted (sortedInsert l s ⟨rid, e, t⟩) ∧
    Separated (sortedInsert l s ⟨rid, e, t⟩) := by
  rw [findOverlapAux] at hfind
  rcases List.append_eq_nil.mp hfind with ⟨hhead, hpart⟩
  have hpred : ∀ p, (l.filter (fun z => bytesLt z.1 s)).getLast? = some p →
      bytesLt s p.2.end_key = false := by
    intro p hp
    rw [hp] at hhead
    cases hcon : bytesLt s p.2.end_key with
    | false => rfl
    | true => simp [hcon] at hhead
  have hleft := left_closed hs hsep hpred
  have hpart2 : ∀ y ∈ l, (!bytesLt y.1 s && bytesLt y.1 e) = false := by
    intro y hy
    rw [List.map_eq_nil_iff] at hpart
    have := List.filter_eq_nil_iff.mp hpart y hy
    simpa using this
  have hright : ∀ y ∈ l, bytesLt s y.1 = true → bytesLt y.1 e = false := by
    intro y hy hsy
    have h1 : bytesLt y.1 s = false := bytesLt_asymm hsy
    have h2 := hpart2 y hy
    rw [h1] at h2
    simpa using h2
  exact ⟨sorted_sortedInsert hs,
    pairwise_sortedInsert hs hsep (fun y hy hyk => hleft y hy hyk)
      (fun y hy hky => hright y hy hky)⟩

/-- The registry operations considered: drains, removals, and the
drain-then-insert discipline used by `insert_pending_delete_range`. -/
inductive PdrOp where
  | drain (s e : Bytes)
  | drainInsert (region_id : Nat) (s e : Bytes) (timeout : Nat)
  | removeKey (k : Bytes)

/-- One registry operation; `none` models an `insert` assertion failure. -/
def applyPdrOp (m : PendingDeleteRanges) : PdrOp → Option PendingDeleteRanges
  | .drain s e => some (m.drain_overlap_ranges s e).2
  | .drainInsert rid s e t => ((m.drain_overlap_ranges s e).2).insert rid s e t
  | .removeKey k => some (m.remove k).2

/-- Run a sequence of registry operations from the empty registry. -/
def applyPdrOps (ops : List PdrOp) : Option PendingDeleteRanges :=
  ops.foldlM applyPdrOp ⟨[]⟩

theorem applyPdrOp_inv {m : PendingDeleteRanges} (h1 : rangesSorted m.ranges)
    (h2 : Separated m.ranges) (op : PdrOp) :
    ∃ m', applyPdrOp m op = some m' ∧ rangesSorted m'.ranges ∧
      Separated m'.ranges := by
  cases op with
  | drain s e => exact ⟨_, rfl, h1.filter _, h2.filter _⟩
  | removeKey k =>
    refine ⟨(m.remove k).2, rfl, ?_, ?_⟩ <;>
    · rw [PendingDeleteRanges.remove]
      cases m.ranges.find? (fun x => x.1 == k) with
      | some x => first
        | exact h1.filter _
        | exact h2.filter _
      | none => first
        | exact h1
        | exact h2
  | drainInsert rid s e t =>
    have hs' : rangesSorted ((m.drain_overlap_ranges s e).2).ranges := h1.filter _
    have hsep' : Separated ((m.drain_overlap_ranges s e).2).ranges := h2.filter _
    have hfe : ((m.drain_overlap_ranges s e).2).find_overlap_ranges s e = [] :=
      find_after_drain h1 h2
    refine ⟨⟨sortedInsert ((m.drain_overlap_ranges s e).2).ranges s ⟨rid, e, t⟩⟩,
      ?_, (insert_inv hs' hsep' hfe).1, (insert_inv hs' hsep' hfe).2⟩
    show ((m.drain_overlap_ranges s e).2).insert rid s e t = _
    rw [PendingDeleteRanges.insert, if_neg (by simp [hfe])]

theorem applyPdrOps_foldInv : ∀ (ops : List PdrOp) (m : PendingDeleteRanges),
    rangesSorted m.ranges → Separated m.ranges →
    ∃ m', ops.foldlM applyPdrOp m = some m' ∧
      rangesSorted m'.ranges ∧ Separated m'.ranges := by
  intro ops
  induction ops with
  | nil => intro m h1 h2; exact ⟨m, rfl, h1, h2⟩
  | cons op ops ih =>
    intro m h1 h2
    rcases applyPdrOp_inv h1 h2 op with ⟨m1, hop, h1m, h2m⟩
    rcases ih m1 h1m h2m with ⟨m', hops, hsm, hsepm⟩
    refine ⟨m', ?_, hsm, hsepm⟩
    rw [List.foldlM_cons, hop]
    simpa using hops

/-- C7: along every operation sequence in which each insert of `[s, e)` is
preceded by `drain_overlap_ranges(s, e)` — plus arbitrary drains and keyed
removals — the registry never holds two overlapping intervals, and `insert`
asserts (panics, modelled as `none`) whenever an overlapping range is still
present at insertion time. -/
theorem C7_pending_delete_ranges_no_overlap :
    (∀ ops : List PdrOp, ∃ m, applyPdrOps ops = some m ∧ NoOverlap m) ∧
    (∀ (m : PendingDeleteRanges) (rid : Nat) (s e : Bytes) (t : Nat),
      rangesSorted m.ranges → ProperRanges m → NoOverlap m →
      (∃ x ∈ m.ranges, rangesOverlap x.1 x.2.end_key s e = true) →
      m.insert rid s e t = none) := by
  constructor
  · intro ops
    rcases applyPdrOps_foldInv ops ⟨[]⟩ (by constructor) (by constructor)
      with ⟨m, hm, hsm, hsepm⟩
    exact ⟨m, hm, separated_noOverlap _ hsm hsepm⟩
  · rintro m rid s e t hs hp hn ⟨x, hx, hov⟩
    have hse : bytesLt s e = true := by
      rw [rangesOverlap] at hov
      rcases Bool.and_eq_true_iff.mp hov with ⟨_, h2⟩
      cases hxs : bytesLt x.1 s with
      | true => rwa [if_pos hxs] at h2
      | false =>
        rw [if_neg (by simp [hxs])] at h2
        exact bytesLt_of_le_of_lt hxs h2
    have hfind := findOverlapAux_eq_filter s e hse m.ranges hs hp hn
    have hne : m.find_overlap_ranges s e ≠ [] := by
      show findOverlapAux m.ranges s e ≠ []
      rw [hfind]
      intro hcon
      rw [List.map_eq_nil_iff] at hcon
      have := List.filter_eq_nil_iff.mp hcon x hx
      rw [hov] at this
      exact this rfl
    rw [PendingDeleteRanges.insert, if_pos hne]

/-- Witness for C7 at a concrete operation sequence and a concrete
still-overlapping insert. -/
theorem C7_pending_delete_ranges_no_overlap_witness :
    (∃ m, applyPdrOps [PdrOp.drainInsert 5 [97] [99] 0] = some m ∧ NoOverlap m) ∧
    (PendingDeleteRanges.mk [([97], ⟨5, [99], 0⟩)]).insert 6 [98] [100] 0 = none := by
  constructor
  · exact C7_pending_delete_ranges_no_overlap.1 [PdrOp.drainInsert 5 [97] [99] 0]
  · exact C7_pending_delete_ranges_no_overlap.2 _ 6 [98] [100] 0
      (by unfold rangesSorted; decide) (by unfold ProperRanges; decide)
      (by unfold NoOverlap; decide)
      ⟨([97], ⟨5, [99], 0⟩), by decide, by decide⟩

/-- The concrete registry of scenario E4: ranges `[a,c)`, `[m,n)`, `[x,z)`
for region 0 and `[f,i)`, `[p,t)` for region 1, keyed by ASCII bytes. -/
def e4map : PendingDeleteRanges :=
  ⟨[([97], ⟨0, [99], 0⟩), ([102], ⟨1, [105], 0⟩), ([109], ⟨0, [110], 0⟩),
    ([112], ⟨1, [116], 0⟩), ([120], ⟨0, [122], 0⟩)]⟩

/-- C8: on a sorted, proper, non-overlapping registry and a proper query
range, `drain_overlap_ranges(s, e)` removes and returns exactly the entries
whose interval intersects `[s, e)`, in ascending start-key order; in
particular draining `[g, q)` from scenario E4 returns `B[f,i)`, `A[m,n)`,
`B[p,t)` in key order and leaves exactly `A[a,c)` and `A[x,z)`. -/
theorem C8_drain_overlap_exact :
    (∀ (m : PendingDeleteRanges) (s e : Bytes),
      rangesSorted m.ranges → ProperRanges m → NoOverlap m → bytesLt s e = true →
      (m.drain_overlap_ranges s e).1 =
        (m.ranges.filter (fun z => rangesOverlap z.1 z.2.end_key s e)).map
          (fun z => (z.2.region_id, z.1, z.2.end_key)) ∧
      ((m.drain_overlap_ranges s e).2).ranges =
        m.ranges.filter (fun z => !rangesOverlap z.1 z.2.end_key s e)) ∧
    (e4map.drain_overlap_ranges [103] [113]).1 =
      [(1, [102], [105]), (0, [109], [110]), (1, [112], [116])] ∧
    ((e4map.drain_overlap_ranges [103] [113]).2).ranges =
      [([97], ⟨0, [99], 0⟩), ([120], ⟨0, [122], 0⟩)] := by
  refine ⟨fun m s e hs hp hn hse => drain_overlap_eq m s e hs hp hn hse,
    by decide, by decide⟩

/-- Witness for C8's general part applied to the E4 registry. -/
theorem C8_drain_overlap_exact_witness :
    (e4map.drain_overlap_ranges [103] [113]).1 =
      (e4map.ranges.filter
        (fun z => rangesOverlap z.1 z.2.end_key [103] [113])).map
        (fun z => (z.2.region_id, z.1, z.2.end_key)) ∧
    ((e4map.drain_overlap_ranges [103] [113]).2).ranges =
      e4map.ranges.filter (fun z => !rangesOverlap z.1 z.2.end_key [103] [113]) :=
  C8_drain_overlap_exact.1 e4map [103] [113]
    (by unfold rangesSorted; decide) (by unfold ProperRanges; decide)
    (by unfold NoOverlap; decide) (by decide)

/-! ## CDC delegate (`components/cdc/src/delegate.rs`) -/

structure RegionEpoch where
  version : Nat := 0
  conf_ver : Nat := 0
deriving DecidableEq

/-- The region metadata the delegate caches: id and epoch. -/
structure Region where
  id : Nat := 0
  epoch : RegionEpoch := {}
deriving DecidableEq

/-- The `errorpb` header variants relevant here (payloads of
`Error::Request`). -/
inductive ErrorHeader where
  | NotLeader (region_id : Nat)
  | EpochNotMatch (current_regions : List Region)
  | Other
deriving DecidableEq

/-- Wire error variants produced by `Delegate::error_event`. -/
inductive EventError where
  | NotLeader (region_id : Nat)
  | EpochNotMatch (current_regions : List Region)
  | RegionNotFound (region_id : Nat)
deriving DecidableEq

inductive EventRowOpType where
  | Unknown
  | Put
  | Delete
deriving DecidableEq

inductive EventLogType where
  | Unknown
  | Prewrite
  | Commit
  | Rollback
  | Committed
  | Initialized
deriving DecidableEq

/-- A wire `EventRow`; `EventRow::default()` zeroes every field. -/
structure EventRow where
  start_ts : Nat := 0
  commit_ts : Nat := 0
  key : Bytes := []
  value : Bytes := []
  old_value : Bytes := []
  op_type : EventRowOpType := .Unknown
  r_type : EventLogType := .Unknown
deriving DecidableEq

inductive EventPayload where
  | Entries (rows : List EventRow)
  | Error (e : EventError)
  | ResolvedTs (ts : Nat)
deriving DecidableEq

/-- A wire `Event`. -/
structure Event where
  region_id : Nat := 0
  index : Nat := 0
  request_id : Nat := 0
  payload : Option EventPayload := none
deriving DecidableEq

inductive DownstreamState where
  | Uninitialized
  | Normal
  | Stopped
deriving DecidableEq

/-- A downstream subscriber; its sink is modelled as the list of events it
has received (`none` when no sink is attached). -/
structure Downstream where
  id : Nat
  req_id : Nat := 0
  region_epoch : RegionEpoch := {}
  sink : Option (List Event) := none
  state : DownstreamState := .Uninitialized
deriving DecidableEq

/-- `Downstream::sink_event`: stamp the request id and push into the sink;
without a sink the event is dropped. -/
def Downstream.sink_event (d : Downstream) (ev : Event) : Downstream :=
  match d.sink with
  | none => d
  | some evs => { d with sink := some (evs ++ [{ ev with request_id := d.req_id }]) }

/-- Modelled from the spec: the per-region `Resolver` of the external
`resolved_ts` crate (not part of this tree) — in-flight locks
`start_ts → raw keys` with `init`, `track_lock`, `untrack_lock` and
`resolve`; `resolve(min_ts)` yields the largest `T ≤ min_ts` such that no
tracked lock has `start_ts < T`, and nothing before `init`. -/
structure Resolver where
  region_id : Nat := 0
  initialized : Bool := false
  locks : List (Nat × Bytes) := []
deriving DecidableEq

def Resolver.init (r : Resolver) : Resolver := { r with initialized := true }

def Resolver.track_lock (r : Resolver) (start_ts : Nat) (key : Bytes) : Resolver :=
  { r with locks := r.locks ++ [(start_ts, key)] }

def Resolver.untrack_lock (r : Resolver) (start_ts : Nat)
    (_commit_ts : Option Nat) (key : Bytes) : Resolver :=
  { r with locks := r.locks.filter (fun l => !(l.1 == start_ts && l.2 == key)) }

def Resolver.resolve (r : Resolver) (min_ts : Nat) : Option Nat :=
  if r.initialized then some (r.locks.foldl (fun acc l => min acc l.1) min_ts)
  else none

/-- A buffered lock effect (`PendingLock`). -/
inductive PendingLock where
  | Track (key : Bytes) (start_ts : Nat)
  | Untrack (key : Bytes) (start_ts : Nat) (commit_ts : Option Nat)
deriving DecidableEq

def PendingLock.key : PendingLock → Bytes
  | .Track k _ => k
  | .Untrack k _ _ => k

/-- Applying one buffered effect to a resolver, exactly as the replay loop of
`on_region_ready` does. -/
def Resolver.applyPendingLock (r : Resolver) : PendingLock → Resolver
  | .Track key start_ts => r.track_lock start_ts key
  | .Untrack key start_ts commit_ts => r.untrack_lock start_ts commit_ts key

/-- The `Pending` buffer of an uninitialized delegate. -/
structure Pending where
  downstreams : List Downstream := []
  locks : List PendingLock := []
  pending_bytes : Nat := 0
deriving DecidableEq

/-- The per-region CDC delegate. -/
structure Delegate where
  id : Nat := 0
  region_id : Nat
  region : Option Region := none
  downstreams : List Downstream := []
  resolver : Option Resolver := none
  pending : Option Pending := none
  enabled : Bool := true
  failed : Bool := false
deriving DecidableEq

/-- `Delegate::new`. -/
def Delegate.new (region_id : Nat) : Delegate :=
  { region_id := region_id, pending := some {} }

/-- `Delegate::error_event`: not-leader and epoch-not-match headers pass
through; anything else becomes a region-not-found payload. -/
def Delegate.error_event (d : Delegate) (err : ErrorHeader) : Event :=
  let cdc_err : EventError :=
    match err with
    | .NotLeader rid => .NotLeader rid
    | .EpochNotMatch regions => .EpochNotMatch regions
    | .Other => .RegionNotFound d.region_id
  { region_id := d.region_id, payload := some (.Error cdc_err) }

/-- Modelled from the spec: `compare_region_epoch` with
`check_conf_ver = false`, `check_ver = true`, `include_region = true`
(`raftstore::store::util`, not part of this tree): only the epoch version is
compared and the current region rides in an `EpochNotMatch` payload. -/
def compare_region_epoch_ver (epoch : RegionEpoch) (region : Region) :
    Option ErrorHeader :=
  if epoch.version ≠ region.epoch.version then some (.EpochNotMatch [region])
  else none

/-- Result of `Delegate::subscribe`: the updated delegate, the returned flag,
and — when the epoch check failed — the rejected downstream, whose sink has
received the synthesized error event. -/
structure SubscribeResult where
  delegate : Delegate
  ok : Bool
  rejected : Option Downstream
deriving DecidableEq

/-- `Delegate::subscribe`; `none` models the `unwrap` panic of a delegate
with neither region nor pending buffer. -/
def Delegate.subscribe (d : Delegate) (ds : Downstream) : Option SubscribeResult :=
  match d.region with
  | some region =>
    match compare_region_epoch_ver ds.region_epoch region with
    | some err => some ⟨d, false, some (ds.sink_event (d.error_event err))⟩
    | none => some ⟨{ d with downstreams := d.downstreams ++ [ds] }, true, none⟩
  | none =>
    match d.pending with
    | some p =>
        let p2 : Pending := { p with downstreams := p.downstreams ++ [ds] }
        some ⟨{ d with pending := some p2 }, true, none⟩
    | none => none

/-- The list `Delegate::downstreams()` reads: the buffered downstreams while
uninitialized, the active list afterwards. -/
def Delegate.downstreamsList (d : Delegate) : List Downstream :=
  match d.pending with
  | some p => p.downstreams
  | none => d.downstreams

/-- Send to every downstream of the list, skipping — except for the last
element, which always receives the original event — those not in `Normal`
state when `normal_only` is set. -/
def broadcastList : List Downstream → Event → Bool → List Downstream
  | [], _, _ => []
  | [x], ev, _ => [x.sink_event ev]
  | x :: y :: xs, ev, normal_only =>
      (if normal_only && !(x.state == DownstreamState.Normal) then x
       else x.sink_event ev) :: broadcastList (y :: xs) ev normal_only

/-- `Delegate::broadcast`; `none` models the non-emptiness assertion
failing. -/
def Delegate.broadcast (d : Delegate) (ev : Event) (normal_only : Bool) :
    Option Delegate :=
  match d.pending with
  | some p =>
      if p.downstreams.isEmpty then none
      else
        let p2 : Pending :=
          { p with downstreams := broadcastList p.downstreams ev normal_only }
        some ({ d with pending := some p2 })
  | none =>
      if d.downstreams.isEmpty then none
      else some { d with downstreams := broadcastList d.downstreams ev normal_only }

/-- `Delegate::stop`: mark failed, clear the enabled flag, set every *active*
downstream to `Stopped`, then broadcast the error event to `downstreams()`
with `normal_only = false`. -/
def Delegate.stop (d : Delegate) (err : ErrorHeader) : Option Delegate :=
  let stopped := d.downstreams.map (fun x => { x with state := DownstreamState.Stopped })
  let d1 : Delegate := { d with failed := true, enabled := false, downstreams := stopped }
  Delegate.broadcast d1 (d1.error_event err) false

/-- The resolver-effect fragment of `Delegate::sink_data`: a lock-CF track or
write-CF untrack effect is applied directly when the resolver is installed,
and buffered (with its byte accounting) while uninitialized; `none` models
the `assert!(self.pending.is_some())` failure. -/
def Delegate.observeLock (d : Delegate) (op : PendingLock) : Option Delegate :=
  match d.resolver with
  | some r => some { d with resolver := some (r.applyPendingLock op) }
  | none =>
    match d.pending with
    | none => none
    | some p =>
        let p2 : Pending := { p with
                                locks := p.locks ++ [op],
                                pending_bytes := p.pending_bytes + op.key.length }
        some ({ d with pending := some p2 })

/-- Fold a sequence of observed lock effects through the delegate. -/
def Delegate.observeLocks (d : Delegate) : List PendingLock → Option Delegate
  | [] => some d
  | op :: ops => (d.observeLock op).bind (fun d1 => d1.observeLocks ops)

/-- `Delegate::on_region_ready`: asserts no resolver is installed yet,
replays the buffered lock operations in order into the new resolver,
installs resolver and region, and hands back the buffered downstreams. -/
def Delegate.on_region_ready (d : Delegate) (resolver : Resolver)
    (region : Region) : Option (Delegate × List Downstream) :=
  if d.resolver.isSome then none
  else
    match d.pending with
    | none => none
    | some p =>
        let d2 : Delegate := { d with
                                 region := some region,
                                 resolver := some (p.locks.foldl Resolver.applyPendingLock resolver),
                                 pending := none }
        some (d2, p.downstreams)

/-- `Delegate::on_min_ts`: nothing while uninitialized, otherwise the result
of `resolver.resolve(min_ts)`; the delegate — and with it every downstream
sink — is returned unchanged, so the absence of any broadcast is
observable. -/
def Delegate.on_min_ts (d : Delegate) (min_ts : Nat) : Delegate × Option Nat :=
  match d.resolver with
  | none => (d, none)
  | some r =>
    match r.resolve min_ts with
    | none => (d, none)
    | some rts => (d, some rts)

/-- With `normal_only = false`, `broadcast` delivers to every downstream. -/
theorem broadcastList_false : ∀ (l : List Downstream) (ev : Event),
    broadcastList l ev false = l.map (fun x => x.sink_event ev) := by
  intro l ev
  induction l with
  | nil => rfl
  | cons x xs ih =>
    cases xs with
    | nil => rfl
    | cons y ys =>
      rw [broadcastList, ih]
      simp

/-- Pointwise description of a mapped list, in `Forall₂` form. -/
theorem forall2_map_self {α β : Type} {r : α → β → Prop} {f : α → β} :
    ∀ {l : List α}, (∀ x ∈ l, r x (f x)) → List.Forall₂ r l (l.map f)
  | [], _ => List.Forall₂.nil
  | x :: xs, h =>
      List.Forall₂.cons (h x (List.mem_cons_self _ _))
        (forall2_map_self (fun y hy => h y (List.mem_cons_of_mem _ hy)))

/-- The downstream received exactly one more event — `ev` stamped with its
request id — or, without a sink, still has none. -/
def receivedOne (old new : Downstream) (ev : Event) : Prop :=
  match old.sink with
  | none => new.sink = none
  | some evs => new.sink = some (evs ++ [{ ev with request_id := old.req_id }])

theorem sink_event_state (x : Downstream) (ev : Event) :
    (x.sink_event ev).state = x.state := by
  cases h : x.sink <;> simp [Downstream.sink_event, h]

/-- `broadcast` on a ready delegate with downstreams delivers to each. -/
theorem broadcast_ready {d : Delegate} (hpend : d.pending = none)
    (hne : d.downstreams ≠ []) (ev : Event) :
    d.broadcast ev false =
      some { d with downstreams := d.downstreams.map (fun x => x.sink_event ev) } := by
  obtain ⟨did, drid, dreg, ddowns, dres, dpend, den, dfl⟩ := d
  simp only at hpend hne
  subst hpend
  cases ddowns with
  | nil => exact absurd rfl hne
  | cons a as => simp [Delegate.broadcast, broadcastList_false]

/-- `broadcast` on an uninitialized delegate delivers to each buffered
downstream. -/
theorem broadcast_pending {d : Delegate} {p : Pending} (hpend : d.pending = some p)
    (hne : p.downstreams ≠ []) (ev : Event) :
    d.broadcast ev false =
      some { d with pending :=
                      some { p with downstreams :=
                                      p.downstreams.map (fun x => x.sink_event ev) } } := by
  obtain ⟨did, drid, dreg, ddowns, dres, dpend, den, dfl⟩ := d
  simp only at hpend hne
  subst hpend
  obtain ⟨pd, pl, pb⟩ := p
  simp only at hne
  cases pd with
  | nil => exact absurd rfl hne
  | cons a as => simp [Delegate.broadcast, broadcastList_false]

/-- C2 (amended): after `stop(err)` the delegate is failed, its enabled flag
is false, and one Error event is broadcast to every downstream of
`downstreams()` — the pending list while Uninitialized, the active list when
Ready.  The *active* downstreams are all set to `Stopped`, but the buffered
downstreams of an Uninitialized delegate keep their previous state. -/
theorem C2_stop_amended (d : Delegate) (err : ErrorHeader) :
    (∃ ee, (d.error_event err).payload = some (EventPayload.Error ee)) ∧
    (d.pending = none → d.downstreams ≠ [] →
      ∃ d', d.stop err = some d' ∧ d'.enabled = false ∧ d'.failed = true ∧
        List.Forall₂ (fun old new =>
            new.state = DownstreamState.Stopped ∧
            receivedOne old new (d.error_event err))
          d.downstreams d'.downstreams) ∧
    (∀ p, d.pending = some p → p.downstreams ≠ [] →
      ∃ d' p', d.stop err = some d' ∧ d'.enabled = false ∧ d'.failed = true ∧
        d'.pending = some p' ∧
        List.Forall₂ (fun old new =>
            new.state = old.state ∧ receivedOne old new (d.error_event err))
          p.downstreams p'.downstreams) := by
  refine ⟨⟨_, rfl⟩, ?_, ?_⟩
  · intro hpend hne
    obtain ⟨did, drid, dreg, ddowns, dres, dpend, den, dfl⟩ := d
    simp only at hpend hne ⊢
    subst hpend
    have hmapne : ddowns.map (fun x => { x with state := DownstreamState.Stopped }) ≠ [] := by
      cases ddowns with
      | nil => exact absurd rfl hne
      | cons a as => simp
    rw [Delegate.stop]
    rw [broadcast_ready rfl hmapne]
    refine ⟨_, rfl, rfl, rfl, ?_⟩
    simp only [List.map_map]
    refine forall2_map_self ?_
    intro x _
    refine ⟨sink_event_state _ _, ?_⟩
    cases h : x.sink with
    | none => simp [receivedOne, Downstream.sink_event, h]
    | some evs => simp [receivedOne, Downstream.sink_event, h, Delegate.error_event]
  · intro p hpend hne
    obtain ⟨did, drid, dreg, ddowns, dres, dpend, den, dfl⟩ := d
    simp only at hpend hne ⊢
    subst hpend
    rw [Delegate.stop]
    rw [broadcast_pending rfl hne]
    refine ⟨_, _, rfl, rfl, rfl, rfl, ?_⟩
    refine forall2_map_self ?_
    intro x _
    refine ⟨(sink_event_state _ _).symm ▸ rfl, ?_⟩
    cases h : x.sink with
    | none => simp [receivedOne, Downstream.sink_event, h]
    | some evs => simp [receivedOne, Downstream.sink_event, h, Delegate.error_event]

/-- A pending-phase downstream with an attached sink. -/
def c2down : Downstream := { id := 7, req_id := 11, sink := some [] }

/-- An uninitialized delegate holding one buffered downstream. -/
def c2delegate : Delegate :=
  { region_id := 1, pending := some { downstreams := [c2down] } }

/-- The single error event the buffered downstream of `c2delegate`
receives. -/
def c2event : Event :=
  { region_id := 1, request_id := 11,
    payload := some (EventPayload.Error (EventError.NotLeader 1)) }

/-- C2 counterexample: stopping an Uninitialized delegate leaves its buffered
downstream in state `Uninitialized`, not `Stopped` — `stop` only marks the
active list — even though the error event was delivered to it. -/
theorem C2_stop_counterexample :
    ((c2delegate.stop (ErrorHeader.NotLeader 1)).map
        (fun d' => d'.downstreamsList.map (fun x => x.state))) =
      some [DownstreamState.Uninitialized] ∧
    ((c2delegate.stop (ErrorHeader.NotLeader 1)).map
        (fun d' => d'.downstreamsList.map (fun x => x.sink))) =
      some [some [c2event]] := by
  constructor <;> rfl

/-- Witness for the amended C2 at a Ready and an Uninitialized delegate. -/
theorem C2_stop_amended_witness :
    (∃ d', (Delegate.mk 0 1 (some { id := 1 }) [c2down] none none true false).stop
        (ErrorHeader.NotLeader 1) = some d' ∧ d'.enabled = false ∧ d'.failed = true ∧
      List.Forall₂ (fun old new =>
          new.state = DownstreamState.Stopped ∧
          receivedOne old new
            ((Delegate.mk 0 1 (some { id := 1 }) [c2down] none none true false).error_event
              (ErrorHeader.NotLeader 1)))
        [c2down] d'.downstreams) ∧
    (∃ d' p', c2delegate.stop (ErrorHeader.NotLeader 1) = some d' ∧
      d'.enabled = false ∧ d'.failed = true ∧ d'.pending = some p' ∧
      List.Forall₂ (fun old new =>
          new.state = old.state ∧
          receivedOne old new (c2delegate.error_event (ErrorHeader.NotLeader 1)))
        [c2down] p'.downstreams) :=
  ⟨(C2_stop_amended (Delegate.mk 0 1 (some { id := 1 }) [c2down] none none true false)
      (ErrorHeader.NotLeader 1)).2.1 rfl (by decide),
   (C2_stop_amended c2delegate (ErrorHeader.NotLeader 1)).2.2
      { downstreams := [c2down] } rfl (by decide)⟩

/-- While Uninitialized, each observed lock effect is appended to the pending
buffer in observation order, with its byte accounting. -/
theorem observeLocks_pending : ∀ (ops : List PendingLock) (id rid : Nat)
    (reg : Option Region) (downs : List Downstream) (en fl : Bool) (p : Pending),
    (Delegate.mk id rid reg downs none (some p) en fl).observeLocks ops =
      some (Delegate.mk id rid reg downs none
        (some (Pending.mk p.downstreams (p.locks ++ ops)
          (p.pending_bytes + (ops.map (fun o => o.key.length)).sum))) en fl) := by
  intro ops
  induction ops with
  | nil =>
    intro id rid reg downs en fl p
    simp [Delegate.observeLocks]
  | cons op ops ih =>
    intro id rid reg downs en fl p
    simp only [Delegate.observeLocks, Delegate.observeLock, Option.some_bind]
    rw [ih]
    simp only [List.map_cons, List.sum_cons, List.append_assoc, List.singleton_append]
    refine congrArg some ?_
    refine congrArg (fun q => Delegate.mk id rid reg downs none (some q) en fl) ?_
    refine congrArg (Pending.mk p.downstreams (p.locks ++ op :: ops)) ?_
    omega

/-- On a Ready delegate the same effects are applied directly to the
resolver, folding left in observation order. -/
theorem observeLocks_ready : ∀ (ops : List PendingLock) (id rid : Nat)
    (reg : Option Region) (downs : List Downstream) (pend : Option Pending)
    (en fl : Bool) (r : Resolver),
    (Delegate.mk id rid reg downs (some r) pend en fl).observeLocks ops =
      some (Delegate.mk id rid reg downs
        (some (ops.foldl Resolver.applyPendingLock r)) pend en fl) := by
  intro ops
  induction ops with
  | nil => intro id rid reg downs pend en fl r; simp [Delegate.observeLocks]
  | cons op ops ih =>
    intro id rid reg downs pend en fl r
    simp only [Delegate.observeLocks, Delegate.observeLock, Option.some_bind]
    rw [ih]
    simp [List.foldl_cons]

/-- C1: buffering lock-CF track and write-CF untrack effects while
Uninitialized and replaying them at `on_region_ready` yields exactly the
resolver state obtained by applying the same calls directly to the resolver
of a Ready delegate — both pipelines equal the left fold of the observed
effects over the initial resolver. -/
theorem C1_pending_replay_refines_direct (ops : List PendingLock) (rid : Nat)
    (r0 : Resolver) (region : Region) :
    ((Delegate.new rid).observeLocks ops).bind
        (fun d => (d.on_region_ready r0 region).map (fun pr => pr.1.resolver)) =
      some (some (ops.foldl Resolver.applyPendingLock r0)) ∧
    ((Delegate.new rid).on_region_ready r0 region).bind
        (fun pr => (pr.1.observeLocks ops).map (fun d => d.resolver)) =
      some (some (ops.foldl Resolver.applyPendingLock r0)) := by
  constructor
  · have h0 : Delegate.new rid =
        Delegate.mk 0 rid none [] none (some (Pending.mk [] [] 0)) true false := rfl
    rw [h0, observeLocks_pending]
    simp [Delegate.on_region_ready]
  · have h1 : (Delegate.new rid).on_region_ready r0 region =
        some (Delegate.mk 0 rid (some region) [] (some r0) none true false, []) := rfl
    rw [h1, Option.some_bind, observeLocks_ready]
    simp

/-- The resolver of the C3 scenario: initialized, no tracked locks. -/
def c3resolver : Resolver := { region_id := 1, initialized := true }

/-- A Ready delegate with one Normal downstream holding an empty sink. -/
def c3delegate : Delegate :=
  { region_id := 1, region := some { id := 1 },
    downstreams :=
      [{ id := 3, req_id := 5, sink := some [], state := DownstreamState.Normal }],
    resolver := some c3resolver, pending := none }

/-- C3 counterexample: `on_min_ts` yields a resolved timestamp, yet the
delegate — and with it every downstream sink — is unchanged: the operation
broadcasts no resolved-ts event. -/
theorem C3_on_min_ts_counterexample :
    (c3delegate.on_min_ts 5).2 = some 5 ∧
    (c3delegate.on_min_ts 5).1 = c3delegate := by
  constructor <;> rfl

/-- C3 (amended): `on_min_ts(min_ts)` returns nothing while Uninitialized
and otherwise returns exactly `resolver.resolve(min_ts)`; the delegate state,
including every downstream sink, is left untouched — broadcasting the
resolved timestamp is the caller's job. -/
theorem C3_on_min_ts_amended (d : Delegate) (min_ts : Nat) :
    (d.resolver = none → d.on_min_ts min_ts = (d, none)) ∧
    (∀ r, d.resolver = some r → d.on_min_ts min_ts = (d, r.resolve min_ts)) := by
  constructor
  · intro h
    obtain ⟨did, drid, dreg, ddowns, dres, dpend, den, dfl⟩ := d
    simp only at h
    subst h
    rfl
  · intro r h
    obtain ⟨did, drid, dreg, ddowns, dres, dpend, den, dfl⟩ := d
    simp only at h
    subst h
    simp only [Delegate.on_min_ts]
    cases Resolver.resolve r min_ts <;> rfl

/-- Witness for the amended C3 at an Uninitialized and a Ready delegate. -/
theorem C3_on_min_ts_amended_witness :
    (Delegate.new 1).on_min_ts 5 = (Delegate.new 1, none) ∧
    c3delegate.on_min_ts 5 = (c3delegate, c3resolver.resolve 5) :=
  ⟨(C3_on_min_ts_amended (Delegate.new 1) 5).1 rfl,
   (C3_on_min_ts_amended c3delegate 5).2 c3resolver rfl⟩

/-- C6: subscribing on a Ready delegate checks only the epoch version
(configuration version ignored); a mismatch sinks exactly one error event
carrying the current region into the rejected downstream's sink and returns
failure without adding it; a match appends the downstream and succeeds.  On
an Uninitialized delegate the downstream is buffered unconditionally. -/
theorem C6_subscribe_epoch_check (d : Delegate) (ds : Downstream) :
    (∀ region, d.region = some region →
      (ds.region_epoch.version ≠ region.epoch.version →
        d.subscribe ds = some ⟨d, false,
          some (ds.sink_event
            (d.error_event (ErrorHeader.EpochNotMatch [region])))⟩) ∧
      (ds.region_epoch.version = region.epoch.version →
        d.subscribe ds =
          some ⟨{ d with downstreams := d.downstreams ++ [ds] }, true, none⟩)) ∧
    (∀ p, d.region = none → d.pending = some p →
      d.subscribe ds =
        some ⟨{ d with
                  pending := some { p with downstreams := p.downstreams ++ [ds] } },
          true, none⟩) := by
  constructor
  · intro region hreg
    obtain ⟨did, drid, dreg, ddowns, dres, dpend, den, dfl⟩ := d
    simp only at hreg
    subst hreg
    constructor
    · intro hne
      simp [Delegate.subscribe, compare_region_epoch_ver, hne]
    · intro heq
      simp [Delegate.subscribe, compare_region_epoch_ver, heq]
  · intro p hreg hpend
    obtain ⟨did, drid, dreg, ddowns, dres, dpend, den, dfl⟩ := d
    simp only at hreg hpend
    subst hreg
    subst hpend
    simp [Delegate.subscribe]

/-- The cached region of the C6 scenario: id 1, epoch version 2,
configuration version 2. -/
def c6region : Region := { id := 1, epoch := { version := 2, conf_ver := 2 } }

/-- A Ready delegate caching `c6region`. -/
def c6ready : Delegate := { region_id := 1, region := some c6region }

/-- A downstream whose epoch version mismatches the cached region. -/
def c6dsBad : Downstream :=
  { id := 21, req_id := 9, region_epoch := { version := 3, conf_ver := 2 },
    sink := some [] }

/-- A downstream whose epoch version matches although its configuration
version differs — accepted, showing the conf-ver is ignored. -/
def c6dsGood : Downstream :=
  { id := 22, region_epoch := { version := 2, conf_ver := 7 } }

/-- Witness for C6 at concrete mismatching, matching and buffered
subscriptions. -/
theorem C6_subscribe_epoch_check_witness :
    c6ready.subscribe c6dsBad = some ⟨c6ready, false,
      some (c6dsBad.sink_event
        (c6ready.error_event (ErrorHeader.EpochNotMatch [c6region])))⟩ ∧
    c6ready.subscribe c6dsGood =
      some ⟨{ c6ready with downstreams := c6ready.downstreams ++ [c6dsGood] },
        true, none⟩ ∧
    (Delegate.new 1).subscribe c6dsBad =
      some ⟨{ Delegate.new 1 with pending := some ⟨[c6dsBad], [], 0⟩ }, true, none⟩ :=
  ⟨((C6_subscribe_epoch_check c6ready c6dsBad).1 c6region rfl).1 (by decide),
   ((C6_subscribe_epoch_check c6ready c6dsGood).1 c6region rfl).2 (by decide),
   (C6_subscribe_epoch_check (Delegate.new 1) c6dsBad).2 ⟨[], [], 0⟩ rfl rfl⟩

/-! ## Ranged deletion (`components/engine_rocks/src/misc.rs`) -/

/-- The lock column family name (`CF_LOCK`). -/
def CF_LOCK : String := "lock"

/-- Modelled from the spec: the delete-batch cap `MAX_DELETE_BATCH_COUNT`
of `engine_traits` (not part of this tree). -/
def MAX_DELETE_BATCH_COUNT : Nat := 256

/-- A write-batch operation issued by `delete_all_in_range_cf`. -/
inductive WriteOp where
  | DeleteKey (cf : String) (key : Bytes)
  | DeleteRange (cf : String) (start_key end_key : Bytes)
deriving DecidableEq

/-- One iteration of the point-delete loop: append a `delete_cf` to the write
batch, flushing it once it reaches `MAX_DELETE_BATCH_COUNT`. -/
def deleteStep (cf : String) (st : List (List WriteOp) × List WriteOp)
    (k : Bytes) : List (List WriteOp) × List WriteOp :=
  let wb := st.2 ++ [WriteOp.DeleteKey cf k]
  if MAX_DELETE_BATCH_COUNT ≤ wb.length then (st.1 ++ [wb], []) else (st.1, wb)

/-- The trailing `if wb.count() > 0 { write }` flush. -/
def flushFinal (fin : List (List WriteOp) × List WriteOp) : List (List WriteOp) :=
  if 0 < fin.2.length then fin.1 ++ [fin.2] else fin.1

/-- `delete_all_in_range_cf` over a column family whose keys, in iteration
(ascending) order, are `keys`: the sequence of flushed write batches.  With
`use_delete_range` set on a non-lock column family, one range tombstone;
otherwise the range `[start_key, end_key)` is iterated and every key deleted
individually in bounded batches. -/
def delete_all_in_range_cf (cf : String) (keys : List Bytes)
    (start_key end_key : Bytes) (use_delete_range : Bool) :
    List (List WriteOp) :=
  if use_delete_range && !(cf == CF_LOCK) then
    [[WriteOp.DeleteRange cf start_key end_key]]
  else
    let iterKeys := keys.filter (fun k => !bytesLt k start_key && bytesLt k end_key)
    flushFinal (iterKeys.foldl (deleteStep cf) ([], []))

/-- The point-delete loop writes exactly one `delete_cf` per iterated key, in
order, and every flushed batch is non-empty and within the cap. -/
theorem deleteFold_spec (cf : String) : ∀ (ks : List Bytes)
    (acc : List (List WriteOp)) (wb : List WriteOp),
    wb.length < MAX_DELETE_BATCH_COUNT →
    (∀ b ∈ acc, b ≠ [] ∧ b.length ≤ MAX_DELETE_BATCH_COUNT) →
    (flushFinal (ks.foldl (deleteStep cf) (acc, wb))).join =
        acc.join ++ wb ++ ks.map (fun k => WriteOp.DeleteKey cf k) ∧
    ∀ b ∈ flushFinal (ks.foldl (deleteStep cf) (acc, wb)),
      b ≠ [] ∧ b.length ≤ MAX_DELETE_BATCH_COUNT := by
  intro ks
  induction ks with
  | nil =>
    intro acc wb hwb hacc
    simp only [List.foldl_nil]
    constructor
    · by_cases h : 0 < wb.length
      · simp [flushFinal, h, List.join_append]
      · have hnil : wb = [] := by
          cases wb with
          | nil => rfl
          | cons a l => simp at h
        subst hnil
        simp [flushFinal]
    · intro b hb
      by_cases h : 0 < wb.length
      · simp only [flushFinal, if_pos h] at hb
        rcases List.mem_append.mp hb with hb | hb
        · exact hacc b hb
        · rcases List.mem_singleton.mp hb with rfl
          refine ⟨?_, by omega⟩
          intro hcon
          rw [hcon] at h
          simp at h
      · have hnil : wb = [] := by
          cases wb with
          | nil => rfl
          | cons a l => simp at h
        subst hnil
        simp only [flushFinal] at hb
        simp at hb
        exact hacc b hb
  | cons k ks ih =>
    intro acc wb hwb hacc
    simp only [List.foldl_cons]
    by_cases hfull : MAX_DELETE_BATCH_COUNT ≤ wb.length + 1
    · have hstep : deleteStep cf (acc, wb) k =
          (acc ++ [wb ++ [WriteOp.DeleteKey cf k]], []) := by
        simp [deleteStep, List.length_append, hfull]
      rw [hstep]
      have hacc2 : ∀ b ∈ acc ++ [wb ++ [WriteOp.DeleteKey cf k]],
          b ≠ [] ∧ b.length ≤ MAX_DELETE_BATCH_COUNT := by
        intro b hb
        rcases List.mem_append.mp hb with hb | hb
        · exact hacc b hb
        · rcases List.mem_singleton.mp hb with rfl
          refine ⟨by simp, ?_⟩
          simp only [List.length_append, List.length_singleton]
          omega
      have hres := ih (acc ++ [wb ++ [WriteOp.DeleteKey cf k]]) []
        (by simp [MAX_DELETE_BATCH_COUNT]) hacc2
      refine ⟨?_, hres.2⟩
      rw [hres.1]
      simp [List.join_append, List.append_assoc]
    · have hstep : deleteStep cf (acc, wb) k =
          (acc, wb ++ [WriteOp.DeleteKey cf k]) := by
        simp [deleteStep, List.length_append, hfull]
      rw [hstep]
      have hlen : (wb ++ [WriteOp.DeleteKey cf k]).length < MAX_DELETE_BATCH_COUNT := by
        simp only [List.length_append, List.length_singleton]
        omega
      have hres := ih acc (wb ++ [WriteOp.DeleteKey cf k]) hlen hacc
      refine ⟨?_, hres.2⟩
      rw [hres.1]
      simp [List.append_assoc]

/-- C10: on the lock column family, `delete_all_in_range_cf` never writes a
range-delete tombstone even when `use_delete_range` is true — it iterates the
range and issues per-key point deletes in write batches flushed at
`MAX_DELETE_BATCH_COUNT` — while every other column family uses
`delete_range_cf` when `use_delete_range` is true. -/
theorem C10_lock_cf_never_delete_range :
    (∀ (keys : List Bytes) (s e : Bytes),
      delete_all_in_range_cf CF_LOCK keys s e true =
        delete_all_in_range_cf CF_LOCK keys s e false ∧
      (delete_all_in_range_cf CF_LOCK keys s e true).join =
        (keys.filter (fun k => !bytesLt k s && bytesLt k e)).map
          (fun k => WriteOp.DeleteKey CF_LOCK k) ∧
      (∀ b ∈ delete_all_in_range_cf CF_LOCK keys s e true,
        b ≠ [] ∧ b.length ≤ MAX_DELETE_BATCH_COUNT)) ∧
    (∀ (cf : String) (keys : List Bytes) (s e : Bytes), cf ≠ CF_LOCK →
      delete_all_in_range_cf cf keys s e true =
        [[WriteOp.DeleteRange cf s e]]) := by
  constructor
  · intro keys s e
    have hcond : (true && !(CF_LOCK == CF_LOCK)) = false := by decide
    have hspec := deleteFold_spec CF_LOCK
      (keys.filter (fun k => !bytesLt k s && bytesLt k e)) [] []
      (by simp [MAX_DELETE_BATCH_COUNT]) (by intro b hb; cases hb)
    refine ⟨rfl, ?_, ?_⟩
    · rw [delete_all_in_range_cf, hcond]
      simpa using hspec.1
    · rw [delete_all_in_range_cf, hcond]
      simpa using hspec.2
  · intro cf keys s e hne
    have hcond : (true && !(cf == CF_LOCK)) = true := by
      simp [hne]
    rw [delete_all_in_range_cf, hcond]
    simp

/-- Witness for C10 at a concrete key set and range, on the lock and the
write column families. -/
theorem C10_lock_cf_never_delete_range_witness :
    (delete_all_in_range_cf CF_LOCK [[1], [2]] [0] [9] true =
        delete_all_in_range_cf CF_LOCK [[1], [2]] [0] [9] false ∧
      (delete_all_in_range_cf CF_LOCK [[1], [2]] [0] [9] true).join =
        (([[1], [2]] : List Bytes).filter
            (fun k => !bytesLt k [0] && bytesLt k [9])).map
          (fun k => WriteOp.DeleteKey CF_LOCK k) ∧
      (∀ b ∈ delete_all_in_range_cf CF_LOCK [[1], [2]] [0] [9] true,
        b ≠ [] ∧ b.length ≤ MAX_DELETE_BATCH_COUNT)) ∧
    delete_all_in_range_cf "write" [[1], [2]] [0] [9] true =
      [[WriteOp.DeleteRange "write" [0] [9]]] :=
  ⟨C10_lock_cf_never_delete_range.1 [[1], [2]] [0] [9],
   C10_lock_cf_never_delete_range.2 "write" [[1], [2]] [0] [9] (by decide)⟩

/-! ## Initial scan (`Delegate::on_scan` and the row decoders) -/

/-- `EVENT_MAX_SIZE`: 6 MiB. -/
def EVENT_MAX_SIZE : Nat := 6 * 1024 * 1024

inductive LockType where
  | Put
  | Delete
  | Lock
  | Pessimistic
deriving DecidableEq

/-- Modelled from the spec: a parsed lock-CF record (`txn_types::Lock`,
whose byte-level parser is not part of this tree): lock type, start ts and
optional inlined short value. -/
structure LockRecord where
  lock_type : LockType
  ts : Nat
  short_value : Option Bytes
deriving DecidableEq

inductive WriteType where
  | Put
  | Delete
  | Rollback
  | Lock
deriving DecidableEq

/-- Modelled from the spec: a parsed write-CF record (`txn_types::Write`):
write type, start ts and optional inlined short value. -/
structure WriteRecord where
  write_type : WriteType
  start_ts : Nat
  short_value : Option Bytes
deriving DecidableEq

/-- A `TxnEntry` of the initial scan: the default-CF key/value pair and the
lock- resp. write-CF pair (the CF value already parsed), plus the optional
old value.  `none` in the entry stream is the end-of-scan sentinel. -/
inductive TxnEntry where
  | Prewrite (dflt : Bytes × Bytes) (lock : Bytes × LockRecord)
      (old_value : Option Bytes)
  | Commit (dflt : Bytes × Bytes) (write : Bytes × WriteRecord)
      (old_value : Option Bytes)
deriving DecidableEq

/-- `decode_write`: skip non-Put/Delete/Rollback records; commit ts from the
key suffix (zero for rollbacks); raw key by truncating the suffix; log type
`Commit` or `Rollback`.  Returns `(skip, row)`; `none` models the decode
`unwrap` panics. -/
def decode_write (key : Bytes) (write : WriteRecord) (row : EventRow) :
    Option (Bool × EventRow) :=
  if write.write_type ≠ WriteType.Put ∧ write.write_type ≠ WriteType.Delete ∧
      write.write_type ≠ WriteType.Rollback then
    some (true, row)
  else
    let op_type : EventRowOpType :=
      match write.write_type with
      | WriteType.Put => EventRowOpType.Put
      | WriteType.Delete => EventRowOpType.Delete
      | _ => EventRowOpType.Unknown
    let r_type : EventLogType :=
      if write.write_type = WriteType.Rollback then EventLogType.Rollback
      else EventLogType.Commit
    let k := Key.from_encoded key
    (if write.write_type = WriteType.Rollback then some 0 else k.decode_ts).bind
      (fun commit_ts => (k.truncate_ts.bind Key.into_raw).map
        (fun rawKey =>
          (false, { row with
                      start_ts := write.start_ts, commit_ts := commit_ts,
                      key := rawKey, op_type := op_type, r_type := r_type,
                      value := write.short_value.getD row.value })))

/-- `decode_lock`: skip non-Put/Delete locks; start ts from the lock; raw key
by decoding; log type `Prewrite`. -/
def decode_lock (key : Bytes) (lock : LockRecord) (row : EventRow) :
    Option (Bool × EventRow) :=
  if lock.lock_type ≠ LockType.Put ∧ lock.lock_type ≠ LockType.Delete then
    some (true, row)
  else
    let op_type : EventRowOpType :=
      match lock.lock_type with
      | LockType.Put => EventRowOpType.Put
      | LockType.Delete => EventRowOpType.Delete
      | _ => EventRowOpType.Unknown
    ((Key.from_encoded key).into_raw).map
      (fun rawKey =>
        (false, { row with
                    start_ts := lock.ts, key := rawKey, op_type := op_type,
                    r_type := EventLogType.Prewrite,
                    value := lock.short_value.getD row.value }))

/-- `decode_default`: a non-empty default-CF value overwrites the row
value. -/
def decode_default (value : Bytes) (row : EventRow) : EventRow :=
  if !value.isEmpty then { row with value := value } else row

/-- The chunking state of `on_scan`: the completed row chunks, the chunk
under construction (`rows.last_mut()`), and its cumulative `key+value`
size. -/
structure ScanState where
  done : List (List EventRow)
  cur : List EventRow
  curSize : Nat
deriving DecidableEq

/-- One `on_scan` loop iteration: decode the entry into a row, start a new
chunk when adding it would reach `EVENT_MAX_SIZE`, drop rollbacks, and emit
the `Initialized` sentinel row for the end-of-scan marker. -/
def scanStep (st : ScanState) (entry : Option TxnEntry) : Option ScanState :=
  match entry with
  | some (TxnEntry.Prewrite dflt lock old_value) =>
      (decode_lock lock.1 lock.2 {}).bind (fun sr =>
        if sr.1 then some st
        else
          let row := decode_default dflt.2 sr.2
          let rowSize := row.key.length + row.value.length
          let st1 := if EVENT_MAX_SIZE ≤ st.curSize + rowSize then
              ScanState.mk (st.done ++ [st.cur]) [] 0
            else st
          let row2 := { row with old_value := old_value.getD [] }
          some (ScanState.mk st1.done (st1.cur ++ [row2]) (st1.curSize + rowSize)))
  | some (TxnEntry.Commit dflt write old_value) =>
      (decode_write write.1 write.2 {}).bind (fun sr =>
        if sr.1 then some st
        else
          let row := decode_default dflt.2 sr.2
          if row.r_type = EventLogType.Rollback then some st
          else
            let row2 := { row with r_type := EventLogType.Committed,
                                   old_value := old_value.getD [] }
            let rowSize := row2.key.length + row2.value.length
            let st1 := if EVENT_MAX_SIZE ≤ st.curSize + rowSize then
                ScanState.mk (st.done ++ [st.cur]) [] 0
              else st
            some (ScanState.mk st1.done (st1.cur ++ [row2]) (st1.curSize + rowSize)))
  | none =>
      some (ScanState.mk st.done
        (st.cur ++ [{ r_type := EventLogType.Initialized }]) st.curSize)

/-- The full chunking loop of `on_scan`, returning every chunk (the last one
still open). -/
def scanChunks : List (Option TxnEntry) → ScanState → Option (List (List EventRow))
  | [], st => some (st.done ++ [st.cur])
  | entry :: entries, st => (scanStep st entry).bind (scanChunks entries)

/-- Deliver a list of events, in order, to the first downstream with the
given id. -/
def sendToFirst : List Downstream → Nat → List Event → List Downstream
  | [], _, _ => []
  | x :: xs, target, evs =>
      if x.id = target then (evs.foldl Downstream.sink_event x) :: xs
      else x :: sendToFirst xs target evs

/-- `Delegate::on_scan`: find the downstream (in the pending list while
uninitialized), chunk the entries, and sink one Entries event per non-empty
chunk; an unknown downstream id is a logged no-op. -/
def Delegate.on_scan (d : Delegate) (downstream_id : Nat)
    (entries : List (Option TxnEntry)) : Option Delegate :=
  let downstreams :=
    match d.pending with
    | some p => p.downstreams
    | none => d.downstreams
  if downstreams.all (fun x => !(x.id == downstream_id)) then some d
  else
    (scanChunks entries (ScanState.mk [] [] 0)).map (fun chunks =>
      let events := (chunks.filter (fun rs => !rs.isEmpty)).map (fun rs =>
        ({ region_id := d.region_id,
           payload := some (EventPayload.Entries rs) } : Event))
      match d.pending with
      | some p =>
          let p2 : Pending :=
            { p with downstreams := sendToFirst p.downstreams downstream_id events }
          { d with pending := some p2 }
      | none =>
          { d with downstreams := sendToFirst d.downstreams downstream_id events })

/-- Rows of a chunk other than the zero-sized `Initialized` sentinel. -/
def nonInitCount (rs : List EventRow) : Nat :=
  (rs.filter (fun r => !(r.r_type == EventLogType.Initialized))).length

/-- Cumulative `key.len + value.len` of a chunk. -/
def rowsSize (rs : List EventRow) : Nat :=
  (rs.map (fun r => r.key.length + r.value.length)).sum

/-- The chunk-size invariant carried through the scan loop. -/
def scanInv (st : ScanState) : Prop :=
  (∀ rs ∈ st.done ++ [st.cur],
    2 ≤ nonInitCount rs → rowsSize rs < EVENT_MAX_SIZE) ∧
  st.curSize = rowsSize st.cur

theorem rowsSize_append (xs : List EventRow) (r : EventRow) :
    rowsSize (xs ++ [r]) = rowsSize xs + (r.key.length + r.value.length) := by
  simp [rowsSize]

theorem nonInitCount_append_init (xs : List EventRow) :
    nonInitCount (xs ++ [{ r_type := EventLogType.Initialized }]) =
      nonInitCount xs := by
  simp [nonInitCount, List.filter_append]

theorem nonInitCount_le_length (rs : List EventRow) : nonInitCount rs ≤ rs.length :=
  List.length_filter_le _ _

/-- Pushing a row after the overflow check opened a fresh chunk keeps the
invariant: the fresh chunk holds a single row. -/
theorem scanPush_inv_overflow {st : ScanState} (hinv : scanInv st)
    {row2 : EventRow} {rowSize : Nat}
    (hrs : rowSize = row2.key.length + row2.value.length) :
    scanInv (ScanState.mk (st.done ++ [st.cur]) ([] ++ [row2]) (0 + rowSize)) := by
  obtain ⟨hall, hsize⟩ := hinv
  constructor
  · intro rs hrs2
    rcases List.mem_append.mp hrs2 with h | h
    · exact hall rs h
    · have h2 : rs = [row2] := by simpa using List.mem_singleton.mp h
      subst h2
      intro h2
      have h1 : nonInitCount [row2] ≤ 1 := by
        simpa using nonInitCount_le_length [row2]
      omega
  · simp [rowsSize, hrs]

/-- Pushing a row that fits keeps the invariant: the growing chunk stays
below the bound. -/
theorem scanPush_inv_fit {st : ScanState} (hinv : scanInv st)
    {row2 : EventRow} {rowSize : Nat}
    (hrs : rowSize = row2.key.length + row2.value.length)
    (hfit : ¬ EVENT_MAX_SIZE ≤ st.curSize + rowSize) :
    scanInv (ScanState.mk st.done (st.cur ++ [row2]) (st.curSize + rowSize)) := by
  obtain ⟨hall, hsize⟩ := hinv
  constructor
  · intro rs hrs2
    rcases List.mem_append.mp hrs2 with h | h
    · exact hall rs (List.mem_append.mpr (Or.inl h))
    · rcases List.mem_singleton.mp h with rfl
      intro _
      rw [rowsSize_append, ← hsize, ← hrs]
      omega
  · rw [rowsSize_append, hsize, hrs]

/-- One scan step preserves the chunk-size invariant. -/
theorem scanStep_inv {st st' : ScanState} {e : Option TxnEntry}
    (hinv : scanInv st) (hstep : scanStep st e = some st') : scanInv st' := by
  obtain ⟨hall, hsize⟩ := hinv
  cases e with
  | none =>
    simp only [scanStep] at hstep
    injection hstep with h
    subst h
    constructor
    · intro rs hrs
      rcases List.mem_append.mp hrs with h | h
      · exact hall rs (List.mem_append.mpr (Or.inl h))
      · rcases List.mem_singleton.mp h with rfl
        intro h2
        rw [nonInitCount_append_init] at h2
        have := hall st.cur (List.mem_append.mpr (Or.inr (List.mem_singleton.mpr rfl))) h2
        rw [rowsSize_append]
        simpa using this
    · rw [rowsSize_append]
      simpa using hsize
  | some te =>
    cases te with
    | Prewrite dflt lock old_value =>
      simp only [scanStep] at hstep
      cases hdl : decode_lock lock.1 lock.2 {} with
      | none => rw [hdl] at hstep; cases hstep
      | some sr =>
        rw [hdl] at hstep
        simp only [Option.some_bind] at hstep
        by_cases hskip : sr.1 = true
        · rw [if_pos hskip] at hstep
          injection hstep with h
          subst h
          exact ⟨hall, hsize⟩
        · rw [if_neg hskip] at hstep
          by_cases hov : EVENT_MAX_SIZE ≤ st.curSize +
              ((decode_default dflt.2 sr.2).key.length +
               (decode_default dflt.2 sr.2).value.length)
          · rw [if_pos hov] at hstep
            injection hstep with h
            subst h
            exact scanPush_inv_overflow ⟨hall, hsize⟩ rfl
          · rw [if_neg hov] at hstep
            injection hstep with h
            subst h
            exact scanPush_inv_fit ⟨hall, hsize⟩ rfl hov
    | Commit dflt write old_value =>
      simp only [scanStep] at hstep
      cases hdw : decode_write write.1 write.2 {} with
      | none => rw [hdw] at hstep; cases hstep
      | some sr =>
        rw [hdw] at hstep
        simp only [Option.some_bind] at hstep
        by_cases hskip : sr.1 = true
        · rw [if_pos hskip] at hstep
          injection hstep with h
          subst h
          exact ⟨hall, hsize⟩
        · rw [if_neg hskip] at hstep
          dsimp only at hstep
          by_cases hrb : (decode_default dflt.2 sr.2).r_type = EventLogType.Rollback
          · rw [if_pos hrb] at hstep
            injection hstep with h
            subst h
            exact ⟨hall, hsize⟩
          · rw [if_neg hrb] at hstep
            by_cases hov : EVENT_MAX_SIZE ≤ st.curSize +
                (({ decode_default dflt.2 sr.2 with
                      r_type := EventLogType.Committed,
                      old_value := old_value.getD [] } : EventRow).key.length +
                 ({ decode_default dflt.2 sr.2 with
                      r_type := EventLogType.Committed,
                      old_value := old_value.getD [] } : EventRow).value.length)
            · rw [if_pos hov] at hstep
              injection hstep with h
              subst h
              exact scanPush_inv_overflow ⟨hall, hsize⟩ rfl
            · rw [if_neg hov] at hstep
              injection hstep with h
              subst h
              exact scanPush_inv_fit ⟨hall, hsize⟩ rfl hov

/-- The whole loop preserves the invariant on every produced chunk. -/
theorem scanChunks_inv : ∀ (entries : List (Option TxnEntry)) (st : ScanState)
    (chunks : List (List EventRow)), scanInv st →
    scanChunks entries st = some chunks →
    ∀ rs ∈ chunks, 2 ≤ nonInitCount rs → rowsSize rs < EVENT_MAX_SIZE := by
  intro entries
  induction entries with
  | nil =>
    intro st chunks hinv h
    simp only [scanChunks] at h
    injection h with h
    subst h
    exact hinv.1
  | cons e entries ih =>
    intro st chunks hinv h
    simp only [scanChunks] at h
    cases hstep : scanStep st e with
    | none => rw [hstep] at h; cases h
    | some st1 =>
      rw [hstep] at h
      simp only [Option.some_bind] at h
      exact ih st1 chunks (scanStep_inv hinv hstep) h

/-- C4 (amended): every chunk produced by the scan path that contains at
least two rows besides the zero-sized `Initialized` sentinel has cumulative
`key.len + value.len` strictly below 6 MiB: a new chunk is started whenever
adding the next row would reach the threshold.  An emitted event consisting
of one oversized row plus the sentinel row may exceed the bound, so the
bound holds for events with at least two non-sentinel rows rather than with
at least two rows. -/
theorem C4_scan_chunk_bound (entries : List (Option TxnEntry))
    (chunks : List (List EventRow))
    (h : scanChunks entries (ScanState.mk [] [] 0) = some chunks) :
    ∀ rs ∈ chunks, 2 ≤ nonInitCount rs → rowsSize rs < EVENT_MAX_SIZE := by
  refine scanChunks_inv entries _ chunks ⟨?_, rfl⟩ h
  intro rs hrs
  have h2 : rs = [] := by simpa using hrs
  subst h2
  intro h2
  simp [nonInitCount] at h2

/-- Witness for the amended C4 on the singleton end-of-scan stream. -/
theorem C4_scan_chunk_bound_witness :
    scanChunks [none] (ScanState.mk [] [] 0) =
      some [[{ r_type := EventLogType.Initialized }]] ∧
    ∀ rs ∈ [[({ r_type := EventLogType.Initialized } : EventRow)]],
      2 ≤ nonInitCount rs → rowsSize rs < EVENT_MAX_SIZE :=
  ⟨rfl, C4_scan_chunk_bound [none] _ rfl⟩

/-- A default-CF value of exactly 6 MiB. -/
def bigValue : Bytes := List.replicate EVENT_MAX_SIZE 0

/-- The single scan entry whose row is `key = a`, `value = bigValue`. -/
def c4entry : TxnEntry :=
  TxnEntry.Prewrite (((Key.from_raw [97]).append_ts 1).enc, bigValue)
    ((Key.from_raw [97]).enc, LockRecord.mk LockType.Put 1 none) none

/-- The decoded oversized row. -/
def c4row : EventRow :=
  { start_ts := 1, key := [97], value := bigValue,
    op_type := EventRowOpType.Put, r_type := EventLogType.Prewrite }

theorem bigValue_length : bigValue.length = EVENT_MAX_SIZE := by
  simp [bigValue]

theorem bigValue_not_empty : bigValue.isEmpty = false := by
  show (List.replicate EVENT_MAX_SIZE 0).isEmpty = false
  rw [show EVENT_MAX_SIZE = 6291455 + 1 by norm_num [EVENT_MAX_SIZE],
    List.replicate_succ]
  rfl

/-- The row `decode_lock` produces for the C4 entry, before the default
value is merged. -/
def c4row0 : EventRow :=
  { start_ts := 1, key := [97], op_type := EventRowOpType.Put,
    r_type := EventLogType.Prewrite }

theorem c4_decode_lock : decode_lock (Key.from_raw [97]).enc
    (LockRecord.mk LockType.Put 1 none) {} = some (false, c4row0) := rfl

theorem scanStep_prewrite_overflow (st : ScanState) (dp : Bytes × Bytes)
    (lp : Bytes × LockRecord) (ov : Option Bytes) (r : EventRow)
    (hlk : decode_lock lp.1 lp.2 {} = some (false, r))
    (row : EventRow) (hrow : decode_default dp.2 r = row)
    (rowSize : Nat) (hsz : row.key.length + row.value.length = rowSize)
    (hover : EVENT_MAX_SIZE ≤ st.curSize + rowSize) :
    scanStep st (some (TxnEntry.Prewrite dp lp ov)) =
      some (ScanState.mk (st.done ++ [st.cur])
        [{ row with old_value := ov.getD [] }] (0 + rowSize)) := by
  simp only [scanStep, hlk, Option.some_bind]
  rw [hrow, hsz, if_pos hover]
  simp

theorem c4_decode_default : decode_default bigValue c4row0 = c4row := by
  unfold decode_default
  rw [bigValue_not_empty]
  rfl

theorem c4row_size : c4row.key.length + c4row.value.length =
    1 + EVENT_MAX_SIZE := by
  rw [show c4row.key = [97] from rfl, show c4row.value = bigValue from rfl,
    bigValue_length]
  simp

theorem c4_step1 : scanStep (ScanState.mk [] [] 0) (some c4entry) =
    some (ScanState.mk [[]] [c4row] (0 + (1 + EVENT_MAX_SIZE))) := by
  rw [show c4entry = TxnEntry.Prewrite
      (((Key.from_raw [97]).append_ts 1).enc, bigValue)
      ((Key.from_raw [97]).enc, LockRecord.mk LockType.Put 1 none) none from rfl]
  rw [scanStep_prewrite_overflow (ScanState.mk [] [] 0)
      (((Key.from_raw [97]).append_ts 1).enc, bigValue)
      ((Key.from_raw [97]).enc, LockRecord.mk LockType.Put 1 none) none c4row0
      c4_decode_lock c4row c4_decode_default (1 + EVENT_MAX_SIZE) c4row_size
      (by omega)]
  rfl

theorem c4_chunks : scanChunks [some c4entry, none] (ScanState.mk [] [] 0) =
    some [[], [c4row, { r_type := EventLogType.Initialized }]] := by
  have e1 : scanChunks [some c4entry, none] (ScanState.mk [] [] 0) =
      (scanStep (ScanState.mk [] [] 0) (some c4entry)).bind
        (fun st1 => scanChunks [none] st1) := rfl
  rw [e1, c4_step1, Option.some_bind]
  rfl

theorem rowsSize_pair (a b : EventRow) : rowsSize [a, b] =
    (a.key.length + a.value.length) + (b.key.length + b.value.length) := by
  simp [rowsSize]

theorem c4_rows_size : rowsSize [c4row, { r_type := EventLogType.Initialized }] =
    EVENT_MAX_SIZE + 1 := by
  rw [rowsSize_pair, c4row_size,
    show ({ r_type := EventLogType.Initialized } : EventRow).key.length +
      ({ r_type := EventLogType.Initialized } : EventRow).value.length = 0 from rfl]
  omega

theorem c4_filter_map :
    (([[], [c4row, { r_type := EventLogType.Initialized }]].filter
        (fun rs => !rs.isEmpty)).map
      (fun rs => (rs.length, rowsSize rs))) = [(2, EVENT_MAX_SIZE + 1)] := by
  rw [show ([[], [c4row, { r_type := EventLogType.Initialized }]].filter
      (fun rs => !rs.isEmpty)) =
      [[c4row, { r_type := EventLogType.Initialized }]] from rfl]
  rw [List.map_cons, List.map_nil, c4_rows_size]
  rfl

/-- C4 counterexample: scanning `[c4entry, none]` emits exactly one Entries
event; it has two rows (the oversized row and the `Initialized` sentinel)
and its cumulative `key+value` size is `EVENT_MAX_SIZE + 1`, strictly above
6 MiB — refuting the claim for events with at least two rows. -/
theorem C4_scan_chunk_counterexample :
    (scanChunks [some c4entry, none] (ScanState.mk [] [] 0)).map
        (fun chunks => (chunks.filter (fun rs => !rs.isEmpty)).map
          (fun rs => (rs.length, rowsSize rs))) =
      some [(2, EVENT_MAX_SIZE + 1)] ∧
    EVENT_MAX_SIZE < EVENT_MAX_SIZE + 1 := by
  constructor
  · rw [c4_chunks]
    show some (([[], [c4row, { r_type := EventLogType.Initialized }]].filter
        (fun rs => !rs.isEmpty)).map (fun rs => (rs.length, rowsSize rs))) =
      some [(2, EVENT_MAX_SIZE + 1)]
    rw [c4_filter_map]
  · omega

/-! ## C5: the concrete initial-scan scenario -/

/-- The scanning downstream of the C5 scenario, waiting in the pending
buffer with an attached (empty) sink. -/
def c5d9 : Downstream := { id := 9, req_id := 123, sink := some [] }

/-- The delegate of the C5 scenario: uninitialized, one pending downstream. -/
def c5delegate : Delegate :=
  { region_id := 4, pending := some { downstreams := [c5d9] } }

/-- The C5 entry list: `Prewrite(a↦b, start_ts 1)`,
`Commit(a↦b, start_ts 1, commit_ts 2)`, a `Rollback(start_ts 3)` write
record, and the end-of-scan sentinel (`a = [97]`, `b = [98]`). -/
def c5entries : List (Option TxnEntry) :=
  [some (TxnEntry.Prewrite (((Key.from_raw [97]).append_ts 1).enc, [98])
      ((Key.from_raw [97]).enc, LockRecord.mk LockType.Put 1 none) none),
   some (TxnEntry.Commit (((Key.from_raw [97]).append_ts 1).enc, [98])
      (((Key.from_raw [97]).append_ts 2).enc,
        WriteRecord.mk WriteType.Put 1 none) none),
   some (TxnEntry.Commit ([], [])
      (((Key.from_raw [97]).append_ts 3).enc,
        WriteRecord.mk WriteType.Rollback 3 none) none),
   none]

/-- Expected first row: the prewrite of `a ↦ b` at start ts 1. -/
def c5row1 : EventRow :=
  { start_ts := 1, commit_ts := 0, key := [97], value := [98],
    op_type := EventRowOpType.Put, r_type := EventLogType.Prewrite }

/-- Expected second row: the commit of `a ↦ b` at commit ts 2. -/
def c5row2 : EventRow :=
  { start_ts := 1, commit_ts := 2, key := [97], value := [98],
    op_type := EventRowOpType.Put, r_type := EventLogType.Committed }

/-- Expected third row: the `Initialized` sentinel. -/
def c5row3 : EventRow := { r_type := EventLogType.Initialized }

/-- The single Entries event the C5 downstream receives. -/
def c5event : Event :=
  { region_id := 4, request_id := 123,
    payload := some (EventPayload.Entries [c5row1, c5row2, c5row3]) }

/-- The C5 delegate after the scan: unchanged except that the pending
downstream's sink now holds exactly the one expected Entries event. -/
def c5delegateAfter : Delegate :=
  { region_id := 4,
    pending := some { downstreams := [{ c5d9 with sink := some [c5event] }] } }

/-- C5: feeding the entries `[Prewrite(a↦b, start_ts 1),
Commit(a↦b, start_ts 1, commit_ts 2), Rollback(start_ts 3), None]` to
`on_scan` sinks exactly one Entries event into the target downstream,
carrying exactly the three expected rows in order — the prewrite row, the
committed row, and the `Initialized` sentinel — while the rollback entry
produces no row. -/
theorem C5_scan_rows : Delegate.on_scan c5delegate 9 c5entries =
    some c5delegateAfter := rfl

end TikvSpec
